import Mathlib

/-!
# Verification of the NetMirage setup core

A shallow embedding, in Lean 4, of the address-management and
topology-ingest core of NetMirage (files `src/common/lib/ip.c` and the
setup/GraphML translation unit).  IPv4 addresses are modelled by their
numeric (host-order) 32-bit value as a `Nat`; the byte-order conversions
`ntohl`/`htonl` of the C source are bijections between the stored
network-order word and that numeric value, so they appear here as the
identity on the numeric model.  Machine integers are modelled by `Nat`
or `Int` with explicit `% 2^w` at the points where the C source can
truncate or wrap.  Fallible operations return `Option`.  Loops of the C
source become structurally recursive functions on an explicit fuel
argument; the fuel supplied is always an upper bound on the number of
iterations the C loop can perform, which is proved where it matters.
-/

set_option linter.unusedVariables false

/-! ## IPv4 subnets (`ip.h` / `ip.c`)

`ip4Subnet` is the pair of a (host-order numeric) address and a prefix
length.  The C type stores the address in network byte order; the
numeric value modelled here is `ntohl` of that word. -/

structure ip4Subnet where
  addr : Nat
  prefixLen : Nat
  deriving Repr, DecidableEq

/-- `ip4HostMask` from ip.c: `ntohl((1 << (32 - prefixLen)) - 1)` as the
numeric (host-order) value of the mask. -/
def ip4HostMask (subnet : ip4Subnet) : Nat :=
  2 ^ (32 - subnet.prefixLen) - 1

/-- `ip4SubnetMask` from ip.c: the bitwise complement `~hostMask` on a
32-bit word, i.e. `(2^32 - 1) - hostMask`. -/
def ip4SubnetMask (subnet : ip4Subnet) : Nat :=
  2 ^ 32 - 1 - ip4HostMask subnet

/-- `ip4SubnetStart` from ip.c (numeric value of the subnet address). -/
def ip4SubnetStart (subnet : ip4Subnet) : Nat :=
  subnet.addr

/-- `ip4SubnetEnd` from ip.c: `subnet->addr | hostMask`. -/
def ip4SubnetEnd (subnet : ip4Subnet) : Nat :=
  subnet.addr ||| ip4HostMask subnet

/-- `ip4SubnetSize` from ip.c: `1 << (32 - prefixLen)`, minus 2 when
reserved addresses are excluded and the count exceeds 2. -/
def ip4SubnetSize (subnet : ip4Subnet) (excludeReserved : Bool) : Nat :=
  let count := 2 ^ (32 - subnet.prefixLen)
  if excludeReserved && decide (count > 2) then count - 2 else count

/-- `ip4SubnetHasReserved` from ip.c. -/
def ip4SubnetHasReserved (subnet : ip4Subnet) : Bool :=
  decide (subnet.prefixLen ≤ 30)

/-- A subnet is canonical when its prefix length is in range, the
address fits in 32 bits, and all host bits are zero (ip.c canonicalizes
subnets this way at construction, `subnet->addr &= ip4SubnetMask`). -/
def ip4Canonical (subnet : ip4Subnet) : Prop :=
  subnet.prefixLen ≤ 32 ∧ subnet.addr < 2 ^ 32 ∧
    subnet.addr % 2 ^ (32 - subnet.prefixLen) = 0

instance (s : ip4Subnet) : Decidable (ip4Canonical s) := by
  unfold ip4Canonical; infer_instance

/-! ## The rounding functions used by `gmlNextEdge`

The C source computes per-edge client capacities with
`round(clientsPerEdge * (idx+1)) - round(clientsPerEdge * idx)` followed
by `llrint` of the (exactly representable) difference.  C's `round`
rounds half away from zero regardless of the floating-point rounding
mode; `llrint` under `FE_TONEAREST` rounds half to even, but it is only
applied to a difference of two integer-valued doubles, which is exact.
Doubles are modelled as exact rationals here. -/

/-- C's `round`: round to nearest, ties away from zero. -/
def roundC (q : ℚ) : ℤ :=
  if 0 ≤ q then ⌊q + 1 / 2⌋ else -⌊-q + 1 / 2⌋

/-- Round to nearest, ties to even (the rounding the specification
ascribes to `gmlNextEdge`); used to compare the claim against the code. -/
def roundHalfEven (q : ℚ) : ℤ :=
  if q - ⌊q⌋ < 1 / 2 then ⌊q⌋
  else if 1 / 2 < q - ⌊q⌋ then ⌊q⌋ + 1
  else if Even ⌊q⌋ then ⌊q⌋ else ⌊q⌋ + 1

/-- The capacity `gmlNextEdge` computes for edge `currentEdgeIdx`:
`llrint(round(cpe*(idx+1)) - round(cpe*idx))`, with the outer `llrint`
exact because its argument is an integer-valued double. -/
def gmlEdgeCapacity (clientsPerEdge : ℚ) (currentEdgeIdx : ℕ) : ℤ :=
  roundC (clientsPerEdge * (currentEdgeIdx + 1)) -
    roundC (clientsPerEdge * currentEdgeIdx)

/-- `clientsPerEdge` as computed in `gmlAddLink`:
`(double)clientNodes / (double)edgeNodeCount`, modelled exactly. -/
def clientsPerEdgeOf (clientNodes edgeNodeCount : ℕ) : ℚ :=
  (clientNodes : ℚ) / (edgeNodeCount : ℚ)

/-! ## MAC addresses (`ip.c`)

A MAC address is the array of its 6 octets (most significant first,
matching `macAddr.octets`).  `macNextAddr` increments the big-endian
counter with carry, starting from the last octet. -/

def MAC_ADDR_BYTES : ℕ := 6

/-- A MAC address: the list of octet values, most significant first. -/
abbrev macAddr : Type := List ℕ

/-- Well-formedness of the modelled octet array: 6 octets, each a byte. -/
def macWF (m : macAddr) : Prop :=
  m.length = MAC_ADDR_BYTES ∧ ∀ b ∈ m, b < 256

instance (m : macAddr) : Decidable (macWF m) := by
  unfold macWF; infer_instance

/-- The numeric value of a little-endian octet list (least significant
octet first); helper for stating the big-endian value of a `macAddr`. -/
def leVal : List ℕ → ℕ
  | [] => 0
  | b :: rest => b + 256 * leVal rest

/-- The value of a MAC address as a big-endian 48-bit integer. -/
def macVal (m : macAddr) : ℕ :=
  leVal m.reverse

/-- The carry loop of `macNextAddr`, viewed from the least significant
octet (the C loop walks the array from index 5 down to 0): increment
with wrap-around at 256, returning the incremented list and the C
function's result (`false` exactly when the carry ran off the end). -/
def macIncLE : List ℕ → List ℕ × Bool
  | [] => ([], false)
  | b :: rest =>
    if b = 255 then
      let r := macIncLE rest
      (0 :: r.1, r.2)
    else ((b + 1) :: rest, true)

/-- `macNextAddr` from ip.c: increment the big-endian counter in place;
returns the new counter and `true` unless the counter wrapped to zero. -/
def macNextAddr (addr : macAddr) : macAddr × Bool :=
  let r := macIncLE (List.reverse addr)
  (r.1.reverse, r.2)

/-- `macNextAddrs` from ip.c: copy the current counter into the buffer
`count` times, incrementing after each copy.  Returns the filled buffer,
the final counter, and `unwrapped` (`true` iff no increment wrapped). -/
def macNextAddrs (nextAddr : macAddr) (count : ℕ) : List macAddr × macAddr × Bool :=
  match count with
  | 0 => ([], nextAddr, true)
  | k + 1 =>
    let step := macNextAddr nextAddr
    let rest := macNextAddrs step.1 k
    (nextAddr :: rest.1, rest.2.1, step.2 && rest.2.2)

/-- The all-zero MAC address (`{ .octets = { 0 } }` in `setupGraphML`). -/
def macZero : macAddr := [0, 0, 0, 0, 0, 0]

/-- The MAC counter of `setupGraphML` after its initialization:
`macNextAddr(&ctx.macAddrIter)` is called once on the all-zero address
to skip the unassignable address. -/
def setupInitialMac : macAddr := (macNextAddr macZero).1

/-- The sequence of MAC blocks handed to the worker during a setup run.
Each entry of `requests` is the size of one block allocation performed
by `gmlAddNode` (`NEEDED_MACS_CLIENT`) or `gmlAddLink`
(`NEEDED_MACS_LINK`).  Both callbacks call `macNextAddrs` on the shared
counter and return an error — before passing anything to `workAddHost` /
`workAddLink` — as soon as it reports a wrap, which aborts the run; so
the delivered blocks stop at the first failed allocation. -/
def macBlocksFrom (v : macAddr) : List ℕ → List (List macAddr)
  | [] => []
  | k :: ks =>
    let r := macNextAddrs v k
    if r.2.2 then r.1 :: macBlocksFrom r.2.1 ks else []

/-! ## Subnet fragmentation (`ip.c`)

`ip4FragmentSubnet` splits a parent subnet into "small" (size `2^k`)
and "large" (size `2^(k+1)`) fragments.  The floating-point steps of the
C source are exact and are modelled by the integer values they compute:
`floor((double)parentSize / fragmentCount)` is `parentSize / fragmentCount`
(the quotient error is below 2^-20 and the exact quotient is at least
2^-32 away from any integer it does not equal, since
`parentSize ≤ 2^32`); `llrint(log2 ...)` under `FE_DOWNWARD` is
`Nat.log2`; and `llrint(leftoverSize / smallSize)` is exact because
`smallSize` (a power of two) divides `leftoverSize`.  The shift
`1U << smallerPow2` is modelled as `2 ^ smallerPow2`; the two coincide
for every `smallerPow2 ≤ 31`, and `smallerPow2 = 32` (where the C shift
is undefined) only occurs for a /0 parent with `fragmentCount = 1`. -/

structure ip4FragIter where
  first : Bool
  currentAddr : ℕ
  smallIncrement : ℕ
  smallPrefixLen : ℕ
  largeFragmentsRemaining : ℕ
  fragmentsRemaining : ℕ
  deriving Repr, DecidableEq

/-- `ip4FragmentSubnet` from ip.c.  Returns `none` where the C function
returns `NULL` (`parentSize < fragmentCount`).  The C function is only
invoked with `fragmentCount ≥ 1`; for `fragmentCount = 0` it would
compute `llrint` of an infinity, which is undefined. -/
def ip4FragmentSubnet (subnet : ip4Subnet) (fragmentCount : ℕ) : Option ip4FragIter :=
  let parentSize := ip4SubnetSize subnet false
  if parentSize < fragmentCount then none
  else
    let smallerPow2 := Nat.log2 (parentSize / fragmentCount)
    let smallSize := 2 ^ smallerPow2
    let totalSmallSize := smallSize * fragmentCount
    let leftoverSize := parentSize - totalSmallSize
    let largeFragments := leftoverSize / smallSize
    some { first := true
           currentAddr := subnet.addr
           smallIncrement := smallSize
           smallPrefixLen := 32 - smallerPow2
           largeFragmentsRemaining := largeFragments
           fragmentsRemaining := fragmentCount }

/-- `ip4FragIterNext` from ip.c: advance the iterator; returns the C
function's result together with the updated iterator. -/
def ip4FragIterNext (it : ip4FragIter) : Bool × ip4FragIter :=
  if it.fragmentsRemaining = 0 then (false, it)
  else if it.first then (true, { it with first := false })
  else
    let isLarge := decide (it.largeFragmentsRemaining > 0)
    let it' := { it with
      largeFragmentsRemaining := it.largeFragmentsRemaining - (if isLarge then 1 else 0)
      currentAddr := it.currentAddr + it.smallIncrement * (if isLarge then 2 else 1)
      fragmentsRemaining := it.fragmentsRemaining - 1 }
    (decide (it'.fragmentsRemaining > 0), it')

/-- `ip4FragIterSubnet` from ip.c: read the current fragment.  The
address cast `htonl((uint32_t)currentAddr)` truncates to 32 bits, and
the prefix `(uint8_t)(smallPrefixLen - 1)` is 8-bit arithmetic. -/
def ip4FragIterSubnet (it : ip4FragIter) : ip4Subnet :=
  { addr := it.currentAddr % 2 ^ 32
    prefixLen :=
      if it.largeFragmentsRemaining > 0 then (it.smallPrefixLen + 255) % 256
      else it.smallPrefixLen }

/-- Iterate `ip4FragIterNext` a number of times, keeping the state. -/
def fragIterate (it : ip4FragIter) : ℕ → ip4FragIter
  | 0 => it
  | n + 1 => fragIterate (ip4FragIterNext it).2 n

/-- The fragments produced by the standard usage loop
`while (ip4FragIterNext(it)) { ip4FragIterSubnet(it, &f); ... }`,
reading at most `fuel` fragments. -/
def fragList (it : ip4FragIter) : ℕ → List ip4Subnet
  | 0 => []
  | fuel + 1 =>
    let r := ip4FragIterNext it
    if r.1 then ip4FragIterSubnet r.2 :: fragList r.2 fuel else []

/-- All fragments of `ip4FragmentSubnet subnet fragmentCount` (empty
when fragmentation fails). -/
def fragmentsOf (subnet : ip4Subnet) (fragmentCount : ℕ) : List ip4Subnet :=
  match ip4FragmentSubnet subnet fragmentCount with
  | none => []
  | some it => fragList it fragmentCount

/-- The closed form of the fragment list: `large` fragments of size
`2^(k+1)` followed by the rest of size `2^k`, laid out contiguously from
`base`. -/
def fragClosedForm (base k large count : ℕ) : List ip4Subnet :=
  (List.range count).map fun i =>
    if i < large then { addr := base + i * 2 ^ (k + 1), prefixLen := 31 - k }
    else { addr := base + large * 2 ^ (k + 1) + (i - large) * 2 ^ k, prefixLen := 32 - k }

/-- The iterator produced by a successful `ip4FragmentSubnet`, with the
derived quantities as parameters. -/
def mkFragIter (base k large count : ℕ) : ip4FragIter :=
  { first := true
    currentAddr := base
    smallIncrement := 2 ^ k
    smallPrefixLen := 32 - k
    largeFragmentsRemaining := large
    fragmentsRemaining := count }

/-! ## The avoiding address iterator (`ip.c`)

`ip4NewIter` collects the avoid subnets as closed integer ranges, sorts
them by (start ascending, end descending) — `ignoreRangeCompare` — and
iterates with a cursor (`currentIgnoreNum`) into the sorted array.  The
C fields are `int64_t`, modelled by `ℤ`.  The C `end` field is called
`stop` here because `end` is reserved in Lean.  The two unbounded C
loops inside `ip4IterNext` become structurally recursive functions on a
fuel argument; both loops advance the cursor, so `length + 1` fuel is
always enough, which the lemmas below exploit. -/

structure ignoreRange where
  start : ℤ
  stop : ℤ
  deriving Repr, DecidableEq

/-- The sort order of `ignoreRangeCompare`: ascending start, and for
equal starts the largest end first. -/
def rangeLE (r s : ignoreRange) : Bool :=
  decide (r.start < s.start) ||
    (decide (r.start = s.start) && decide (s.stop ≤ r.stop))

/-- Insertion step of the sorting model for the C `qsort` call. -/
def insertRange (r : ignoreRange) : List ignoreRange → List ignoreRange
  | [] => [r]
  | x :: xs => if rangeLE r x then r :: x :: xs else x :: insertRange r xs

/-- Sorting model for `qsort(ignores, ..., &ignoreRangeCompare)`: any
sort agreeing with `ignoreRangeCompare` yields the same iteration
behaviour, since ranges tied under the comparator are equal. -/
def sortRanges (l : List ignoreRange) : List ignoreRange :=
  l.foldr insertRange []

/-- The closed address range covered by a subnet. -/
def subnetToRange (s : ip4Subnet) : ignoreRange :=
  { start := (ip4SubnetStart s : ℤ), stop := (ip4SubnetEnd s : ℤ) }

/-- Whether address `a` lies in the ignore range `r` (the containment
test of `ip4IterNext`). -/
def ip4RangeContains (r : ignoreRange) (a : ℤ) : Bool :=
  decide (r.start ≤ a) && decide (a ≤ r.stop)

/-- `a` is outside every ignore range of `igs`. -/
def freeOf (igs : List ignoreRange) (a : ℤ) : Bool :=
  igs.all fun r => !(ip4RangeContains r a)

structure ip4Iter where
  currentAddr : ℤ
  finalAddr : ℤ
  ignores : List ignoreRange
  currentIgnoreNum : ℕ
  deriving Repr, DecidableEq

/-- `ip4NewIter` from ip.c.  When reserved-address exclusion is active,
two extra single-address ranges (network and broadcast address) are
appended before sorting. -/
def ip4NewIter (subnet : ip4Subnet) (excludeReserved : Bool)
    (avoidSubnets : List ip4Subnet) : ip4Iter :=
  let needToExclude := excludeReserved && ip4SubnetHasReserved subnet
  let given := avoidSubnets.map subnetToRange
  let extra : List ignoreRange :=
    if needToExclude then
      [{ start := (ip4SubnetStart subnet : ℤ), stop := (ip4SubnetStart subnet : ℤ) },
       { start := (ip4SubnetEnd subnet : ℤ), stop := (ip4SubnetEnd subnet : ℤ) }]
    else []
  { currentAddr := (ip4SubnetStart subnet : ℤ) - 1
    finalAddr := (ip4SubnetEnd subnet : ℤ)
    ignores := sortRanges (given ++ extra)
    currentIgnoreNum := 0 }

/-- The inner `do { ++currentIgnoreNum; ... } while (IGNORES_REMAIN &&
currentAddr > currentIgnore->end)` loop of `ip4IterNext`: the caller
starts it at `idx + 1` (the unconditional first increment). -/
def skipDead (igs : List ignoreRange) (cur : ℤ) : ℕ → ℕ → ℕ
  | 0, idx => idx
  | fuel + 1, idx =>
    match igs[idx]? with
    | some r => if r.stop < cur then skipDead igs cur fuel (idx + 1) else idx
    | none => idx

/-- The outer `while (true)` loop of `ip4IterNext`: while the current
address lies inside the cursor's range, skip past that range and advance
the cursor. -/
def skipLoop (igs : List ignoreRange) : ℕ → ℤ → ℕ → ℤ × ℕ
  | 0, cur, idx => (cur, idx)
  | fuel + 1, cur, idx =>
    match igs[idx]? with
    | some r =>
      if decide (r.start ≤ cur) && decide (cur ≤ r.stop) then
        skipLoop igs fuel (r.stop + 1)
          (skipDead igs (r.stop + 1) igs.length (idx + 1))
      else (cur, idx)
    | none => (cur, idx)

/-- `ip4IterNext` from ip.c: returns the C result together with the
updated iterator. -/
def ip4IterNext (it : ip4Iter) : Bool × ip4Iter :=
  if it.finalAddr ≤ it.currentAddr then (false, it)
  else
    let r := skipLoop it.ignores (it.ignores.length + 1)
      (it.currentAddr + 1) it.currentIgnoreNum
    (decide (r.1 ≤ it.finalAddr),
      { it with currentAddr := r.1, currentIgnoreNum := r.2 })

/-- `ip4IterAddr` from ip.c: `htonl((uint32_t)currentAddr)`; the
`uint32_t` cast truncates to 32 bits. -/
def ip4IterAddr (it : ip4Iter) : ℤ :=
  it.currentAddr % 2 ^ 32

/-- The standard usage loop `while (ip4IterNext(it)) { a = ip4IterAddr(it);
... }`, collecting at most `fuel` addresses. -/
def iterRun (it : ip4Iter) : ℕ → List ℤ
  | 0 => []
  | fuel + 1 =>
    let r := ip4IterNext it
    if r.1 then ip4IterAddr r.2 :: iterRun r.2 fuel else []

/-- Every address the iterator yields: the iterator yields strictly
increasing addresses bounded by `finalAddr`, so
`(finalAddr - currentAddr).toNat` calls always reach exhaustion. -/
def ip4IterAll (it : ip4Iter) : List ℤ :=
  iterRun it (it.finalAddr - it.currentAddr).toNat

/-- The ascending list of integers from `s` to `e` inclusive. -/
def intRange (s e : ℤ) : List ℤ :=
  (List.range (e + 1 - s).toNat).map fun i : ℕ => s + (i : ℤ)

/-! ## The GraphML SAX driver (graphml.c)

The three libxml callbacks `graphStartElement`, `graphEndElement` and
`graphCharacters` are modelled as pure transformers of
`GraphParserState`.  XML attribute lists become `List (String × String)`.
The C attribute loops overwrite their locals on every matching
attribute, sometimes breaking after the first match: `firstAtt` models
loops with `break`, `lastAtt` loops without.  Callback invocations
(`newNodeFunc` / `newLinkFunc`, whose results the C ignores) are
returned as a `ParseEvent` list.  The libc numeric parsers `strtod` and
`strtoul` are abstracted as function parameters. -/

inductive GraphParserMode
  | GpUnknown
  | GpInitial
  | GpTopLevel
  | GpGraph
  | GpNode
  | GpEdge
  | GpData
  deriving Repr, DecidableEq

structure GraphNode where
  Id : String
  Client : Bool
  PacketLoss : ℚ
  BandwidthUp : ℚ
  BandwidthDown : ℚ
  deriving Repr, DecidableEq

structure GraphLink where
  SourceId : String
  TargetId : String
  Latency : ℚ
  PacketLoss : ℚ
  Jitter : ℚ
  QueueLen : ℕ
  deriving Repr, DecidableEq

structure NodeAttribs where
  typeId : Option String
  packetLossId : Option String
  bandwidthUpId : Option String
  bandwidthDownId : Option String
  deriving Repr, DecidableEq

structure EdgeAttribs where
  latencyId : Option String
  packetLossId : Option String
  jitterId : Option String
  queueLenId : Option String
  deriving Repr, DecidableEq

structure GraphParserState where
  mode : GraphParserMode
  clientType : Option String
  unknownDepth : ℕ
  unknownMode : GraphParserMode
  defaultUndirected : Bool
  nodeAttribs : NodeAttribs
  edgeAttribs : EdgeAttribs
  dataKey : String
  dataValue : String
  dataMode : GraphParserMode
  node : GraphNode
  link : GraphLink
  dead : Bool
  deriving Repr, DecidableEq

inductive ParseEvent
  | nodeCB (n : GraphNode)
  | linkCB (l : GraphLink)
  deriving Repr, DecidableEq

/-- An attribute loop that breaks after the first matching attribute. -/
def firstAtt (atts : List (String × String)) (key : String) : Option String :=
  (atts.find? fun p => p.1 = key).map Prod.snd

/-- An attribute loop without `break`: the last match wins. -/
def lastAtt (atts : List (String × String)) (key : String) : Option String :=
  (atts.filterMap fun p => if p.1 = key then some p.2 else none).getLast?

/-- The type check of the `CHECK_SET_ATTR` macro. -/
def keyTypeOk (ty : String) (acceptInt acceptFloat acceptStr : Bool) : Bool :=
  if ty = "int" ∨ ty = "long" then acceptInt
  else if ty = "float" ∨ ty = "double" then acceptFloat
  else if ty = "string" then acceptStr
  else false

/-- Record one `<key>` declaration (the `CHECK_SET_ATTR` chains for
`for="node"` and `for="edge"`); a type mismatch is a fatal error. -/
def applyKeyAttr (s : GraphParserState) (nm id ty keyFor : String) :
    GraphParserState :=
  if keyFor = "node" then
    if nm = "type" then
      if keyTypeOk ty false false true then
        { s with nodeAttribs := { s.nodeAttribs with typeId := some id } }
      else { s with dead := true }
    else if nm = "packetloss" then
      if keyTypeOk ty true true false then
        { s with nodeAttribs := { s.nodeAttribs with packetLossId := some id } }
      else { s with dead := true }
    else if nm = "bandwidthup" then
      if keyTypeOk ty true true false then
        { s with nodeAttribs := { s.nodeAttribs with bandwidthUpId := some id } }
      else { s with dead := true }
    else if nm = "bandwidthdown" then
      if keyTypeOk ty true true false then
        { s with nodeAttribs := { s.nodeAttribs with bandwidthDownId := some id } }
      else { s with dead := true }
    else s
  else if keyFor = "edge" then
    if nm = "latency" then
      if keyTypeOk ty true true false then
        { s with edgeAttribs := { s.edgeAttribs with latencyId := some id } }
      else { s with dead := true }
    else if nm = "packetloss" then
      if keyTypeOk ty true true false then
        { s with edgeAttribs := { s.edgeAttribs with packetLossId := some id } }
      else { s with dead := true }
    else if nm = "jitter" then
      if keyTypeOk ty true true false then
        { s with edgeAttribs := { s.edgeAttribs with jitterId := some id } }
      else { s with dead := true }
    else if nm = "queue_len" then
      if keyTypeOk ty true false false then
        { s with edgeAttribs := { s.edgeAttribs with queueLenId := some id } }
      else { s with dead := true }
    else s
  else s

/-- `graphStartElement` from graphml.c. -/
def graphStartElement (s : GraphParserState) (name : String)
    (atts : List (String × String)) : GraphParserState :=
  if s.dead then s
  else
    let r : GraphParserState × Bool :=
      match s.mode with
      | .GpUnknown => ({ s with unknownDepth := s.unknownDepth + 1 }, false)
      | .GpInitial =>
        if name ≠ "graphml" then ({ s with dead := true }, false)
        else
          let s1 :=
            match firstAtt atts "xmlns" with
            | some ns =>
              if ns ≠ "http://graphml.graphdrawing.org/xmlns" then
                { s with dead := true }
              else s
            | none => s
          ({ s1 with mode := .GpTopLevel }, false)
      | .GpTopLevel =>
        if name = "key" then
          let s1 :=
            match lastAtt atts "attr.name", lastAtt atts "id",
                lastAtt atts "attr.type", lastAtt atts "for" with
            | some nm, some id, some ty, some kf => applyKeyAttr s nm id ty kf
            | _, _, _, _ => s
          (s1, true)
        else if name = "graph" then
          let s1 :=
            match firstAtt atts "edgedefault" with
            | some v => { s with defaultUndirected := decide (v = "undirected") }
            | none => s
          ({ s1 with mode := .GpGraph }, false)
        else (s, true)
      | .GpGraph =>
        if name = "node" then
          match lastAtt atts "id" with
          | none => ({ s with dead := true }, false)
          | some id =>
            ({ s with
                node := { Id := id, Client := s.clientType.isNone,
                          PacketLoss := 0, BandwidthUp := 0, BandwidthDown := 0 }
                mode := .GpNode }, false)
        else if name = "edge" then
          let acc := atts.foldl
            (fun (acc : Bool × Option String × Option String) kv =>
              if kv.1 = "directed" then (decide (kv.2 = "false"), acc.2.1, acc.2.2)
              else if kv.1 = "source" then (acc.1, some kv.2, acc.2.2)
              else if kv.1 = "target" then (acc.1, acc.2.1, some kv.2)
              else acc)
            (s.defaultUndirected, none, none)
          match acc.2.1, acc.2.2 with
          | none, _ => ({ s with dead := true }, false)
          | some _, none => ({ s with dead := true }, false)
          | some src, some tgt =>
            if acc.1 = false then ({ s with dead := true }, false)
            else
              ({ s with
                  link := { SourceId := src, TargetId := tgt, Latency := 0,
                            PacketLoss := 0, Jitter := 0, QueueLen := 0 }
                  mode := .GpEdge }, false)
        else (s, true)
      | .GpNode | .GpEdge =>
        if name = "data" then
          let s1 :=
            match firstAtt atts "key" with
            | some k => { s with dataKey := k }
            | none => { s with dead := true }
          ({ s1 with dataValue := "", dataMode := s.mode, mode := .GpData }, false)
        else (s, true)
      | .GpData => (s, true)
    if r.2 then
      { r.1 with unknownMode := r.1.mode, mode := .GpUnknown, unknownDepth := 0 }
    else r.1

/-- Does the recorded attribute id (when declared) match the data key? -/
def matchesAttr (oid : Option String) (k : String) : Bool :=
  match oid with
  | some i => decide (k = i)
  | none => false

/-- `graphEndElement` from graphml.c.  Note that in the `GpData`/node
case the type value is compared against the string literal `"client"`,
not against the configured `clientType` discriminator — this mirrors
`state->node.Client = xmlStrEqual(value, "client")` in the source. -/
def graphEndElement (s : GraphParserState) (name : String)
    (strtodF : String → ℚ) (strtoulF : String → ℕ) :
    GraphParserState × List ParseEvent :=
  if s.dead then (s, [])
  else
    match s.mode with
    | .GpUnknown =>
      if s.unknownDepth = 0 then ({ s with mode := s.unknownMode }, [])
      else ({ s with unknownDepth := s.unknownDepth - 1 }, [])
    | .GpData =>
      let value := s.dataValue
      let s1 :=
        match s.dataMode with
        | .GpNode =>
          if matchesAttr s.nodeAttribs.typeId s.dataKey then
            { s with node := { s.node with Client := decide (value = "client") } }
          else if matchesAttr s.nodeAttribs.packetLossId s.dataKey then
            { s with node := { s.node with PacketLoss := strtodF value } }
          else if matchesAttr s.nodeAttribs.bandwidthUpId s.dataKey then
            { s with node := { s.node with BandwidthUp := strtodF value } }
          else if matchesAttr s.nodeAttribs.bandwidthDownId s.dataKey then
            { s with node := { s.node with BandwidthDown := strtodF value } }
          else s
        | .GpEdge =>
          if matchesAttr s.edgeAttribs.latencyId s.dataKey then
            { s with link := { s.link with Latency := strtodF value } }
          else if matchesAttr s.edgeAttribs.packetLossId s.dataKey then
            { s with link := { s.link with PacketLoss := strtodF value } }
          else if matchesAttr s.edgeAttribs.jitterId s.dataKey then
            { s with link := { s.link with Jitter := strtodF value } }
          else if matchesAttr s.edgeAttribs.queueLenId s.dataKey then
            { s with link := { s.link with QueueLen := strtoulF value } }
          else s
        | _ => { s with dead := true }
      ({ s1 with mode := s1.dataMode }, [])
    | .GpNode => ({ s with mode := .GpGraph }, [.nodeCB s.node])
    | .GpEdge => ({ s with mode := .GpGraph }, [.linkCB s.link])
    | .GpGraph => ({ s with mode := .GpTopLevel }, [])
    | .GpTopLevel =>
      ({ s with mode := .GpUnknown, unknownDepth := 0, unknownMode := .GpUnknown }, [])
    | .GpInitial => ({ s with dead := true }, [])

/-- `graphCharacters` from graphml.c: in `GpData` mode, append the new
characters to the data buffer. -/
def graphCharacters (s : GraphParserState) (ch : String) : GraphParserState :=
  if s.dead then s
  else if s.mode = .GpData then { s with dataValue := s.dataValue ++ ch }
  else s

/-! ## The `gmlAddLink` callback (setup.c)

`gmlAddLink` is modelled as a pure function of the context; external
worker calls (`workEnsureSystemScaling`, `workAddLink`,
`workSetSelfLink`) are recorded as `WorkEvent`s, with their return
values supplied by a `WorkOracle`.  The node registry (GHashTable plus
`nodeStates` array) becomes an association list and a state list; the C
reads `nodeStates[index]` unconditionally, modelled by `getD` (the
orchestrator only stores valid indices in the hash table).
`NEEDED_MACS_LINK` is defined in a header outside this repository and is
taken as a parameter. -/

structure GmlLink where
  sourceName : String
  targetName : String
  weight : ℚ
  deriving Repr, DecidableEq

structure gmlNodeState where
  addr : ℕ
  isClient : Bool
  deriving Repr, DecidableEq

structure gmlContext where
  finishedNodes : Bool
  ignoreEdges : Bool
  clientNodes : ℕ
  nodeCount : ℕ
  names : List (String × ℕ)
  nodeStates : List gmlNodeState
  clientsPerEdge : ℚ
  routes : Option ℕ
  macAddrIter : macAddr
  deriving Repr, DecidableEq

inductive WorkEvent
  | ensureSystemScaling (maxLinks nodes clients : ℕ)
  | newPlanner (nodes : ℕ)
  | addLink (u v addrU addrV : ℕ) (macs : List macAddr)
  | setSelfLink (u : ℕ)
  | setWeight (u v : ℕ) (w : ℚ)
  deriving Repr, DecidableEq

structure WorkOracle where
  ensureSystemScalingRes : ℤ
  addLinkRes : ℤ
  setSelfLinkRes : ℤ
  deriving Repr, DecidableEq

/-- `g_hash_table_lookup` on the name registry. -/
def gmlLookup (names : List (String × ℕ)) (nm : String) : Option ℕ :=
  (names.find? fun p => p.1 = nm).map Prod.snd

/-- The part of `gmlAddLink` after the first-invocation block: resolve
the endpoint states, then register a self-link or an ordinary link. -/
def gmlAddLinkBody (w : WorkOracle) (neededMacsLink : ℕ) (link : GmlLink)
    (ctx : gmlContext) : ℤ × gmlContext × List WorkEvent :=
  match gmlLookup ctx.names link.sourceName with
  | none => (1, ctx, [])
  | some sourceId =>
    match gmlLookup ctx.names link.targetName with
    | none => (1, ctx, [])
    | some targetId =>
      let sourceState := ctx.nodeStates.getD sourceId { addr := 0, isClient := false }
      let targetState := ctx.nodeStates.getD targetId { addr := 0, isClient := false }
      if sourceId = targetId then
        if sourceState.isClient then
          (w.setSelfLinkRes, ctx, [.setSelfLink sourceId])
        else (0, ctx, [])
      else
        let r := macNextAddrs ctx.macAddrIter neededMacsLink
        let ctx' := { ctx with macAddrIter := r.2.1 }
        if r.2.2 = false then (1, ctx', [])
        else
          let evs := [WorkEvent.addLink sourceId targetId sourceState.addr
            targetState.addr r.1]
          if w.addLinkRes = 0 then
            if link.weight < 0 then (1, ctx', evs)
            else
              (0, ctx', evs ++ [.setWeight sourceId targetId link.weight,
                .setWeight targetId sourceId link.weight])
          else (w.addLinkRes, ctx', evs)

/-- `gmlAddLink` from setup.c. -/
def gmlAddLink (w : WorkOracle) (edgeNodeCount neededMacsLink : ℕ)
    (link : GmlLink) (ctx : gmlContext) : ℤ × gmlContext × List WorkEvent :=
  if ctx.ignoreEdges then (0, ctx, [])
  else if ctx.finishedNodes = false then
    let ctx1 := { ctx with finishedNodes := true }
    if ctx.clientNodes < edgeNodeCount then (1, ctx1, [])
    else
      let ev := WorkEvent.ensureSystemScaling (ctx.nodeCount * ctx.nodeCount)
        ctx.nodeCount ctx.clientNodes
      if w.ensureSystemScalingRes ≠ 0 then (w.ensureSystemScalingRes, ctx1, [ev])
      else
        let ctx2 := { ctx1 with
          clientsPerEdge := clientsPerEdgeOf ctx.clientNodes edgeNodeCount
          routes := some ctx.nodeCount }
        let r := gmlAddLinkBody w neededMacsLink link ctx2
        (r.1, r.2.1, ev :: WorkEvent.newPlanner ctx.nodeCount :: r.2.2)
  else gmlAddLinkBody w neededMacsLink link ctx

/-! ## Printing and parsing subnets (ip.c, with libc string functions)

C strings are modelled as `List Char`.  `inet_ntop`/`inet_pton` (libc)
are modelled on their dotted-decimal behaviour: printing emits each
octet in minimal decimal; parsing accepts exactly four decimal octet
components with values up to 255 and without leading zeros (as the
classic BIND `inet_pton4` does).  `strtol` is modelled with optional
whitespace and sign followed by decimal digits; its overflow clamping is
not modelled, which is invisible to `ip4GetSubnet` because any clamped
value still fails the `≤ 32` prefix check. -/

def digitChar (d : ℕ) : Char := Char.ofNat (48 + d)

def isDigitChar (c : Char) : Bool :=
  decide (48 ≤ c.toNat) && decide (c.toNat ≤ 57)

def charVal (c : Char) : ℕ := c.toNat - 48

/-- Decimal digits of `n`, least significant first (`fuel ≥ n` always
terminates the division chain). -/
def natDigitsAux : ℕ → ℕ → List ℕ
  | 0, _ => []
  | fuel + 1, n => if n < 10 then [n] else n % 10 :: natDigitsAux fuel (n / 10)

/-- The minimal decimal numeral of `n`, as printf would produce. -/
def natChars (n : ℕ) : List Char :=
  ((natDigitsAux (n + 1) n).reverse).map digitChar

/-- The value of a decimal digit string (most significant first). -/
def parseDigitsVal (cs : List Char) : ℕ :=
  cs.foldl (fun a c => a * 10 + charVal c) 0

/-- Split a character list on every occurrence of `sep`. -/
def splitOn (sep : Char) : List Char → List (List Char)
  | [] => [[]]
  | c :: rest =>
    match splitOn sep rest with
    | [] => [[c]]
    | g :: gs => if c = sep then [] :: g :: gs else (c :: g) :: gs

/-- One dotted-decimal component accepted by `inet_pton(AF_INET, ...)`:
nonempty, all digits, no leading zero, value at most 255. -/
def parseOctet (cs : List Char) : Option ℕ :=
  if cs ≠ [] ∧ (∀ c ∈ cs, isDigitChar c = true) ∧
      (cs = ['0'] ∨ cs.head? ≠ some '0') ∧ parseDigitsVal cs ≤ 255 then
    some (parseDigitsVal cs)
  else none

/-- Model of `inet_pton(AF_INET, str, ...)`, returning the numeric
(host-order) address value. -/
def inetPton4 (cs : List Char) : Option ℕ :=
  match splitOn '.' cs with
  | [o0, o1, o2, o3] => do
    let b0 ← parseOctet o0
    let b1 ← parseOctet o1
    let b2 ← parseOctet o2
    let b3 ← parseOctet o3
    pure (((b0 * 256 + b1) * 256 + b2) * 256 + b3)
  | _ => none

/-- `ip4GetAddr` from ip.c (a thin wrapper around `inet_pton`). -/
def ip4GetAddr (cs : List Char) : Option ℕ := inetPton4 cs

/-- C `isspace` for the default locale. -/
def isSpaceChar (c : Char) : Bool :=
  decide (c.toNat = 32) || (decide (9 ≤ c.toNat) && decide (c.toNat ≤ 13))

/-- Model of `strtol(s, &end, 10)`: the parsed value and the number of
characters consumed (`0` when no digits were found, matching
`end == nptr`). -/
def strtolModel (cs : List Char) : ℤ × ℕ :=
  let ws := cs.takeWhile isSpaceChar
  let rest1 := cs.drop ws.length
  let isPlus : Bool := decide (rest1.head? = some '+')
  let isMinus : Bool := decide (rest1.head? = some '-')
  let signLen : ℕ := if isPlus || isMinus then 1 else 0
  let sign : ℤ := if isMinus then -1 else 1
  let ds := (rest1.drop signLen).takeWhile isDigitChar
  if ds = [] then (0, 0)
  else (sign * (parseDigitsVal ds : ℤ), ws.length + signLen + ds.length)

/-- `ip4AddrToString` from ip.c (via `inet_ntop`): dotted decimal of the
four octets, most significant first. -/
def ip4AddrToString (addr : ℕ) : List Char :=
  natChars (addr / 2 ^ 24 % 256) ++ '.' :: natChars (addr / 2 ^ 16 % 256) ++
    '.' :: natChars (addr / 2 ^ 8 % 256) ++ '.' :: natChars (addr % 256)

/-- `ip4SubnetToString` from ip.c: `snprintf("%s/%u", ip, prefixLen)`,
assuming the `IP4_CIDR_BUFLEN` buffer (checked at compile time against
`INET_ADDRSTRLEN`) is large enough, as it is for every canonical
subnet. -/
def ip4SubnetToString (s : ip4Subnet) : List Char :=
  ip4AddrToString s.addr ++ '/' :: natChars s.prefixLen

/-- Model of `strchr(str, '/')` splitting at the first slash. -/
def splitFirst (sep : Char) : List Char → Option (List Char × List Char)
  | [] => none
  | c :: rest =>
    if c = sep then some ([], rest)
    else (splitFirst sep rest).map fun p => (c :: p.1, p.2)

/-- `ip4GetSubnet` from ip.c: split at the first `/`, parse the address
part with `inet_pton`, parse the suffix with `strtol` requiring full
consumption and a value in `[0, 32]`, then canonicalize by masking the
host bits. -/
def ip4GetSubnet (cs : List Char) : Option ip4Subnet :=
  match splitFirst '/' cs with
  | none => none
  | some (pre, suf) =>
    match ip4GetAddr pre with
    | none => none
    | some addr =>
      let r := strtolModel suf
      if r.2 = 0 ∨ r.2 ≠ suf.length ∨ r.1 < 0 ∨ 32 < r.1 then none
      else
        let sub0 : ip4Subnet := { addr := addr, prefixLen := r.1.toNat }
        some { sub0 with addr := addr &&& ip4SubnetMask sub0 }

/-! ## Concrete states used to exercise the callbacks -/

/-- Iterate `ip4IterNext` a number of times, keeping only the state. -/
def iterSteps (it : ip4Iter) : ℕ → ip4Iter
  | 0 => it
  | n + 1 => iterSteps (ip4IterNext it).2 n

/-- A parser state about to process the closing tag of a node `<data>`
element for the declared `type` attribute (`dataKey` matches `typeId`),
with the client discriminator `"c"` configured and accumulated text `v`. -/
def typeDataState (v : String) : GraphParserState :=
  { mode := .GpData
    clientType := some "c"
    unknownDepth := 0
    unknownMode := .GpUnknown
    defaultUndirected := false
    nodeAttribs := { typeId := some "t", packetLossId := none,
                     bandwidthUpId := none, bandwidthDownId := none }
    edgeAttribs := { latencyId := none, packetLossId := none,
                     jitterId := none, queueLenId := none }
    dataKey := "t"
    dataValue := v
    dataMode := .GpNode
    node := { Id := "n", Client := false, PacketLoss := 0,
              BandwidthUp := 0, BandwidthDown := 0 }
    link := { SourceId := "", TargetId := "", Latency := 0, PacketLoss := 0,
              Jitter := 0, QueueLen := 0 }
    dead := false }

/-- A parser state in `GpGraph` mode with the given configured client
discriminator. -/
def graphModeState (ct : Option String) : GraphParserState :=
  { typeDataState "" with mode := .GpGraph, clientType := ct }

/-- A parser state whose `dead` flag is set. -/
def deadState : GraphParserState :=
  { typeDataState "" with mode := .GpGraph, dead := true }

/-- A context as the first `gmlAddLink` callback of a run sees it: node
parsing just finished, two client nodes among three nodes. -/
def c8Ctx : gmlContext :=
  { finishedNodes := false, ignoreEdges := false, clientNodes := 2,
    nodeCount := 3, names := [], nodeStates := [], clientsPerEdge := 0,
    routes := none, macAddrIter := setupInitialMac }

/-- A worker oracle whose calls all succeed. -/
def c8Oracle : WorkOracle :=
  { ensureSystemScalingRes := 0, addLinkRes := 0, setSelfLinkRes := 0 }

/-- A sample link for exercising `gmlAddLink`. -/
def c8Link : GmlLink := { sourceName := "a", targetName := "b", weight := 1 }

/-! ## Theorems about `gmlNextEdge`'s capacities (claim C4) -/

theorem roundC_le (q : ℚ) : (roundC q : ℚ) ≤ q + 1 / 2 := by
  unfold roundC
  split
  · exact Int.floor_le _
  · push_cast
    have h1 : (⌊-q + 1 / 2⌋ : ℚ) > -q + 1 / 2 - 1 := by
      have := Int.lt_floor_add_one (-q + 1 / 2)
      linarith
    linarith

theorem le_roundC (q : ℚ) : q - 1 / 2 ≤ (roundC q : ℚ) := by
  unfold roundC
  split
  · have h1 : (⌊q + 1 / 2⌋ : ℚ) > q + 1 / 2 - 1 := by
      have := Int.lt_floor_add_one (q + 1 / 2)
      linarith
    linarith
  · push_cast
    have h1 : (⌊-q + 1 / 2⌋ : ℚ) ≤ -q + 1 / 2 := Int.floor_le _
    linarith

theorem roundC_intCast (n : ℤ) : roundC (n : ℚ) = n := by
  unfold roundC
  have hhalf : ⌊(1 / 2 : ℚ)⌋ = 0 := by norm_num
  rcases le_or_lt 0 (n : ℚ) with h | h
  · rw [if_pos h, add_comm, Int.floor_add_int, hhalf]
    omega
  · rw [if_neg (not_le.mpr h)]
    rw [show -(n : ℚ) + 1 / 2 = (1 / 2 : ℚ) + (-n : ℤ) by push_cast; ring]
    rw [Int.floor_add_int, hhalf]
    omega

theorem roundC_natCast (n : ℕ) : roundC (n : ℚ) = n := by
  have := roundC_intCast (n : ℤ)
  push_cast at this ⊢
  exact this

/-- Each per-edge capacity is at least 1 when `clientsPerEdge ≥ 1`. -/
theorem gmlEdgeCapacity_pos (cpe : ℚ) (e : ℕ) (h : 1 ≤ cpe) :
    1 ≤ gmlEdgeCapacity cpe e := by
  rcases eq_or_lt_of_le h with h1 | h1
  · unfold gmlEdgeCapacity
    rw [← h1]
    simp only [one_mul]
    rw [show ((e : ℚ) + 1) = (((e : ℕ) + 1 : ℕ) : ℚ) by push_cast; ring]
    rw [roundC_natCast, roundC_natCast]
    omega
  · have hy := le_roundC (cpe * (e + 1))
    have hx := roundC_le (cpe * e)
    have hgap : cpe * (e + 1) - cpe * e = cpe := by ring
    have : (0 : ℚ) < (gmlEdgeCapacity cpe e : ℚ) := by
      unfold gmlEdgeCapacity
      push_cast
      linarith
    have h0 : (0 : ℤ) < gmlEdgeCapacity cpe e := by exact_mod_cast this
    omega

/-- The capacities over all edges sum to exactly the client count. -/
theorem gmlEdgeCapacity_sum (C E : ℕ) (hE : 1 ≤ E) :
    (∑ e ∈ Finset.range E, gmlEdgeCapacity (clientsPerEdgeOf C E) e) = C := by
  have hstep : ∀ e : ℕ, gmlEdgeCapacity (clientsPerEdgeOf C E) e =
      (fun i : ℕ => roundC (clientsPerEdgeOf C E * i)) (e + 1) -
        (fun i : ℕ => roundC (clientsPerEdgeOf C E * i)) e := by
    intro e
    unfold gmlEdgeCapacity
    congr 2
    push_cast
    ring
  rw [Finset.sum_congr rfl (fun e _ => hstep e)]
  rw [Finset.sum_range_sub (fun i : ℕ => roundC (clientsPerEdgeOf C E * i))]
  have hE0 : (E : ℚ) ≠ 0 := Nat.cast_ne_zero.mpr (by omega)
  have h1 : clientsPerEdgeOf C E * (E : ℚ) = ((C : ℤ) : ℚ) := by
    unfold clientsPerEdgeOf
    push_cast
    field_simp
  simp only [Nat.cast_zero, mul_zero]
  rw [h1, roundC_intCast]
  rw [show ((0 : ℚ)) = ((0 : ℤ) : ℚ) by norm_num, roundC_intCast]
  omega

/-! ## Lemmas about the MAC counter (claims C6, C7) -/

theorem leVal_lt : ∀ l : List ℕ, (∀ b ∈ l, b < 256) → leVal l < 256 ^ l.length := by
  intro l
  induction l with
  | nil => intro _; simp [leVal]
  | cons b rest ih =>
    intro h
    have hb : b < 256 := h b (by simp)
    have hr := ih (fun x hx => h x (by simp [hx]))
    simp only [leVal, List.length_cons, pow_succ]
    have h256 : (1 : ℕ) ≤ 256 ^ rest.length := Nat.one_le_pow _ _ (by norm_num)
    have h2 : 256 * leVal rest + 256 ≤ 256 * 256 ^ rest.length := by omega
    omega

theorem macIncLE_cons_255 (rest : List ℕ) :
    macIncLE (255 :: rest) = (0 :: (macIncLE rest).1, (macIncLE rest).2) := by
  simp [macIncLE]

theorem macIncLE_cons_lt (b : ℕ) (rest : List ℕ) (h : b ≠ 255) :
    macIncLE (b :: rest) = ((b + 1) :: rest, true) := by
  simp [macIncLE, h]

theorem macIncLE_spec : ∀ l : List ℕ, (∀ b ∈ l, b < 256) →
    ((macIncLE l).1.length = l.length ∧ ∀ b ∈ (macIncLE l).1, b < 256) ∧
    leVal (macIncLE l).1 = (leVal l + 1) % 256 ^ l.length ∧
    (macIncLE l).2 = decide (leVal l ≠ 256 ^ l.length - 1) := by
  intro l
  induction l with
  | nil => intro _; simp [macIncLE, leVal]
  | cons b rest ih =>
    intro h
    have hb : b < 256 := h b (by simp)
    have hrest : ∀ x ∈ rest, x < 256 := fun x hx => h x (by simp [hx])
    have hlt := leVal_lt rest hrest
    obtain ⟨⟨ihlen, ihmem⟩, ihval, ihok⟩ := ih hrest
    have hpow : (256 : ℕ) ^ (rest.length + 1) = 256 * 256 ^ rest.length := by ring
    have hpow1 : (1 : ℕ) ≤ 256 ^ rest.length := Nat.one_le_pow _ _ (by norm_num)
    by_cases hb255 : b = 255
    · subst hb255
      rw [macIncLE_cons_255]
      refine ⟨⟨by simpa using ihlen, ?_⟩, ?_, ?_⟩
      · intro x hx
        rcases List.mem_cons.mp hx with h0 | h0
        · omega
        · exact ihmem x h0
      · simp only [leVal, List.length_cons, ihval, hpow]
        rw [show 255 + 256 * leVal rest + 1 = 256 * (leVal rest + 1) by ring]
        rw [Nat.mul_mod_mul_left]
        omega
      · simp only [List.length_cons, ihok, leVal, hpow]
        congr 1
        apply propext
        constructor <;> intro hne hcontra <;> apply hne <;> omega
    · have hb254 : b < 255 := by omega
      rw [macIncLE_cons_lt b rest hb255]
      refine ⟨⟨by simp, ?_⟩, ?_, ?_⟩
      · intro x hx
        rcases List.mem_cons.mp hx with h0 | h0
        · omega
        · exact hrest x h0
      · simp only [leVal, List.length_cons, hpow]
        have h2 : 256 * leVal rest + 256 ≤ 256 * 256 ^ rest.length := by omega
        rw [Nat.mod_eq_of_lt (by omega)]
        ring
      · simp only [List.length_cons, leVal, hpow]
        symm
        rw [decide_eq_true_iff]
        intro hcontra
        have h2 : 256 * leVal rest + 256 ≤ 256 * 256 ^ rest.length := by omega
        omega

theorem macVal_lt (m : macAddr) (h : macWF m) : macVal m < 2 ^ 48 := by
  obtain ⟨hlen, hmem⟩ := h
  have := leVal_lt (List.reverse m) (by intro b hb; exact hmem b (List.mem_reverse.mp hb))
  rw [List.length_reverse, hlen] at this
  unfold macVal
  calc leVal m.reverse < 256 ^ MAC_ADDR_BYTES := this
  _ = 2 ^ 48 := by norm_num [MAC_ADDR_BYTES]

theorem macNextAddr_spec (m : macAddr) (h : macWF m) :
    macWF (macNextAddr m).1 ∧
    macVal (macNextAddr m).1 = (macVal m + 1) % 2 ^ 48 ∧
    (macNextAddr m).2 = decide (macVal m ≠ 2 ^ 48 - 1) := by
  obtain ⟨hlen, hmem⟩ := h
  have hrev : ∀ b ∈ List.reverse m, b < 256 := by
    intro b hb; exact hmem b (List.mem_reverse.mp hb)
  obtain ⟨⟨hl, hm⟩, hv, hok⟩ := macIncLE_spec (List.reverse m) hrev
  rw [List.length_reverse, hlen] at hl hv hok
  have h2566 : (256 : ℕ) ^ MAC_ADDR_BYTES = 2 ^ 48 := by norm_num [MAC_ADDR_BYTES]
  unfold macNextAddr macWF macVal
  refine ⟨⟨by simpa using hl, ?_⟩, ?_, ?_⟩
  · intro b hb
    exact hm b (List.mem_reverse.mp hb)
  · rw [List.reverse_reverse, hv, h2566]
  · rw [hok, h2566]

theorem macNextAddrs_final (v : macAddr) (k : ℕ) (h : macWF v) :
    macWF (macNextAddrs v k).2.1 ∧
    macVal (macNextAddrs v k).2.1 = (macVal v + k) % 2 ^ 48 := by
  induction k generalizing v with
  | zero =>
    simp only [macNextAddrs]
    exact ⟨h, (Nat.mod_eq_of_lt (by simpa using macVal_lt v h)).symm⟩
  | succ k ih =>
    obtain ⟨hwf', hval', _⟩ := macNextAddr_spec v h
    obtain ⟨ihwf, ihval⟩ := ih (macNextAddr v).1 hwf'
    simp only [macNextAddrs]
    refine ⟨ihwf, ?_⟩
    rw [ihval, hval', Nat.mod_add_mod]
    congr 1
    omega

theorem macNextAddrs_ok (v : macAddr) (k : ℕ) (h : macWF v) :
    (macNextAddrs v k).2.2 = decide (macVal v + k < 2 ^ 48) := by
  induction k generalizing v with
  | zero =>
    have := macVal_lt v h
    simp only [macNextAddrs]
    symm
    rw [decide_eq_true_iff]
    omega
  | succ k ih =>
    obtain ⟨hwf', hval', hok'⟩ := macNextAddr_spec v h
    have hvlt := macVal_lt v h
    simp only [macNextAddrs, hok', ih (macNextAddr v).1 hwf']
    by_cases hc : macVal v = 2 ^ 48 - 1
    · have h1 : (decide (macVal v ≠ 2 ^ 48 - 1)) = false := by
        rw [decide_eq_false_iff_not]
        omega
      rw [h1, Bool.false_and]
      symm
      rw [decide_eq_false_iff_not]
      omega
    · have h1 : (decide (macVal v ≠ 2 ^ 48 - 1)) = true := by
        rw [decide_eq_true_iff]
        omega
      rw [h1, Bool.true_and, hval', Nat.mod_eq_of_lt (by omega)]
      exact decide_eq_decide.mpr (by omega)

theorem macNextAddrs_buffer (v : macAddr) (k : ℕ) (h : macWF v)
    (hb : macVal v + k ≤ 2 ^ 48) :
    ((macNextAddrs v k).1).map macVal = (List.range k).map (macVal v + ·) := by
  induction k generalizing v with
  | zero => simp [macNextAddrs]
  | succ k ih =>
    obtain ⟨hwf', hval', _⟩ := macNextAddr_spec v h
    have hvlt := macVal_lt v h
    by_cases hc : macVal v = 2 ^ 48 - 1
    · have hk0 : k = 0 := by omega
      subst hk0
      simp [macNextAddrs, List.range_succ]
    · have hval1 : macVal (macNextAddr v).1 = macVal v + 1 := by
        rw [hval', Nat.mod_eq_of_lt (by omega)]
      have := ih (macNextAddr v).1 hwf' (by omega)
      simp only [macNextAddrs, List.map_cons, this, hval1]
      rw [List.range_succ_eq_map]
      simp only [List.map_cons, List.map_map]
      refine List.cons_eq_cons.mpr ⟨by omega, ?_⟩
      apply List.map_congr_left
      intro i hi
      simp only [Function.comp_apply]
      omega

theorem macBlocksFrom_nonzero : ∀ (ks : List ℕ) (v : macAddr), macWF v →
    1 ≤ macVal v → ∀ block ∈ macBlocksFrom v ks, ∀ m ∈ block, macVal m ≠ 0 := by
  intro ks
  induction ks with
  | nil => intro v _ _ block hb; simp [macBlocksFrom] at hb
  | cons k rest ih =>
    intro v hwf hv block hb m hm
    simp only [macBlocksFrom] at hb
    by_cases hok : (macNextAddrs v k).2.2 = true
    · rw [if_pos hok] at hb
      have hbound : macVal v + k < 2 ^ 48 := by
        have := macNextAddrs_ok v k hwf
        rw [hok] at this
        exact of_decide_eq_true this.symm
      rcases List.mem_cons.mp hb with h0 | h0
      · subst h0
        have hmap := macNextAddrs_buffer v k hwf (by omega)
        have : macVal m ∈ ((macNextAddrs v k).1).map macVal := List.mem_map_of_mem macVal hm
        rw [hmap] at this
        obtain ⟨i, hi, hieq⟩ := List.mem_map.mp this
        omega
      · obtain ⟨hwff, hvalf⟩ := macNextAddrs_final v k hwf
        refine ih (macNextAddrs v k).2.1 hwff ?_ block h0 m hm
        rw [hvalf, Nat.mod_eq_of_lt (by omega)]
        omega
    · rw [if_neg hok] at hb
      simp at hb

/-! ## Lemmas about the subnet fragmenter (claims C2, C3) -/

theorem fragIterate_add (it : ip4FragIter) (a b : ℕ) :
    fragIterate it (a + b) = fragIterate (fragIterate it a) b := by
  induction a generalizing it with
  | zero => simp [fragIterate]
  | succ a ih =>
    rw [show a + 1 + b = (a + b) + 1 by omega]
    simp only [fragIterate]
    exact ih (ip4FragIterNext it).2

theorem fragIterate_succ_right (it : ip4FragIter) (n : ℕ) :
    fragIterate it (n + 1) = (ip4FragIterNext (fragIterate it n)).2 := by
  induction n generalizing it with
  | zero => simp [fragIterate]
  | succ n ih =>
    simp only [fragIterate]
    exact ih (ip4FragIterNext it).2

theorem ip4FragmentSubnet_eq_mk (P : ip4Subnet) (N : ℕ)
    (hNS : N ≤ ip4SubnetSize P false) :
    ip4FragmentSubnet P N =
      some (mkFragIter P.addr (Nat.log2 (ip4SubnetSize P false / N))
        ((ip4SubnetSize P false -
            2 ^ Nat.log2 (ip4SubnetSize P false / N) * N) /
          2 ^ Nat.log2 (ip4SubnetSize P false / N)) N) := by
  unfold ip4FragmentSubnet mkFragIter
  rw [if_neg (by omega)]

theorem fragIterate_spec (base k L N : ℕ) (hLN : L < N) :
    ∀ j, j < N →
      fragIterate (mkFragIter base k L N) (j + 1) =
        { first := false
          currentAddr := base + 2 ^ k * (j + min j L)
          smallIncrement := 2 ^ k
          smallPrefixLen := 32 - k
          largeFragmentsRemaining := L - min j L
          fragmentsRemaining := N - j } := by
  intro j
  induction j with
  | zero =>
    intro h0
    have hN0 : N ≠ 0 := by omega
    simp only [fragIterate, ip4FragIterNext, mkFragIter]
    simp [hN0]
  | succ j ih =>
    intro hj
    have hj' : j < N := by omega
    rw [fragIterate_succ_right, ih hj']
    have hrem : N - j ≠ 0 := by omega
    by_cases hL : j < L
    · have h1 : min j L = j := by omega
      have h2 : min (j + 1) L = j + 1 := by omega
      have h3 : L - min j L > 0 := by omega
      have hmul : base + 2 ^ k * (j + min j L) + 2 ^ k * 2 =
          base + 2 ^ k * (j + 1 + min (j + 1) L) := by
        rw [h1, h2]; ring
      simp only [ip4FragIterNext]
      simp [hrem, h3, hmul]
      constructor
      · omega
      · omega
    · have h1 : min j L = L := by omega
      have h2 : min (j + 1) L = L := by omega
      have h3 : ¬(L - min j L > 0) := by omega
      have hmul : base + 2 ^ k * (j + min j L) + 2 ^ k * 1 =
          base + 2 ^ k * (j + 1 + min (j + 1) L) := by
        rw [h1, h2]; ring
      simp only [ip4FragIterNext]
      simp [hrem, h3, hmul]
      constructor
      · omega
      · omega

theorem fragNext_true (base k L N : ℕ) (hLN : L < N) :
    ∀ i, i < N →
      (ip4FragIterNext (fragIterate (mkFragIter base k L N) i)).1 = true := by
  intro i hi
  match i with
  | 0 =>
    have hN0 : N ≠ 0 := by omega
    simp only [fragIterate, ip4FragIterNext, mkFragIter]
    simp [hN0]
  | j + 1 =>
    rw [fragIterate_spec base k L N hLN j (by omega)]
    have hrem : N - j ≠ 0 := by omega
    simp only [ip4FragIterNext]
    simp [hrem]
    omega

theorem fragNext_false (base k L N : ℕ) (hLN : L < N) (hN : 1 ≤ N) :
    (ip4FragIterNext (fragIterate (mkFragIter base k L N) N)).1 = false := by
  obtain ⟨j, rfl⟩ : ∃ j, N = j + 1 := ⟨N - 1, by omega⟩
  rw [fragIterate_spec base k L (j + 1) hLN j (by omega)]
  have hrem : j + 1 - j ≠ 0 := by omega
  simp only [ip4FragIterNext]
  simp [hrem]

theorem fragList_eq_map (it : ip4FragIter) (n : ℕ)
    (h : ∀ i, i < n → (ip4FragIterNext (fragIterate it i)).1 = true) :
    fragList it n =
      (List.range n).map (fun i => ip4FragIterSubnet (fragIterate it (i + 1))) := by
  induction n generalizing it with
  | zero => simp [fragList]
  | succ n ih =>
    have h0 : (ip4FragIterNext it).1 = true := by
      have := h 0 (by omega)
      simpa [fragIterate] using this
    simp only [fragList, h0, if_pos rfl]
    have hstep : ∀ i, fragIterate (ip4FragIterNext it).2 i = fragIterate it (i + 1) := by
      intro i
      rw [show i + 1 = 1 + i by omega, fragIterate_add]
      simp [fragIterate]
    have hrec := ih (ip4FragIterNext it).2 (by
      intro i hi
      rw [hstep i]
      exact h (i + 1) (by omega))
    rw [hrec, List.range_succ_eq_map]
    simp only [List.map_cons, List.map_map]
    refine List.cons_eq_cons.mpr ⟨?_, ?_⟩
    · rw [show (1:ℕ) = 0 + 1 from rfl, ← hstep 0]
      simp [fragIterate]
    · apply List.map_congr_left
      intro i hi
      simp only [Function.comp_apply, hstep]

theorem ip4SubnetSize_false (P : ip4Subnet) :
    ip4SubnetSize P false = 2 ^ (32 - P.prefixLen) := by
  simp [ip4SubnetSize]

theorem fragParams_facts (P : ip4Subnet) (N : ℕ) (hc : ip4Canonical P)
    (hN : 1 ≤ N) (hNS : N ≤ ip4SubnetSize P false) :
    2 ^ Nat.log2 (ip4SubnetSize P false / N) * N ≤ ip4SubnetSize P false ∧
    Nat.log2 (ip4SubnetSize P false / N) ≤ 32 - P.prefixLen ∧
    2 ^ Nat.log2 (ip4SubnetSize P false / N) *
        ((ip4SubnetSize P false - 2 ^ Nat.log2 (ip4SubnetSize P false / N) * N) /
          2 ^ Nat.log2 (ip4SubnetSize P false / N)) =
      ip4SubnetSize P false - 2 ^ Nat.log2 (ip4SubnetSize P false / N) * N ∧
    (ip4SubnetSize P false - 2 ^ Nat.log2 (ip4SubnetSize P false / N) * N) /
        2 ^ Nat.log2 (ip4SubnetSize P false / N) < N ∧
    (0 < (ip4SubnetSize P false - 2 ^ Nat.log2 (ip4SubnetSize P false / N) * N) /
        2 ^ Nat.log2 (ip4SubnetSize P false / N) →
      Nat.log2 (ip4SubnetSize P false / N) + 1 ≤ 32 - P.prefixLen) ∧
    P.addr + ip4SubnetSize P false ≤ 2 ^ 32 := by
  obtain ⟨hp32, haddrlt, hmod⟩ := hc
  set m := 32 - P.prefixLen with hm
  have hS : ip4SubnetSize P false = 2 ^ m := ip4SubnetSize_false P
  set S := ip4SubnetSize P false with hSdef
  set k := Nat.log2 (S / N) with hk
  have hNpos : 0 < N := hN
  have hSpos : 0 < S := by rw [hS]; positivity
  have hdivpos : S / N ≠ 0 := by
    have : 1 ≤ S / N := (Nat.one_le_div_iff hNpos).mpr hNS
    omega
  have hk1 : 2 ^ k ≤ S / N := Nat.log2_self_le hdivpos
  have hk2 : S / N < 2 ^ (k + 1) := Nat.lt_log2_self
  have h1 : 2 ^ k * N ≤ S := (Nat.le_div_iff_mul_le hNpos).mp hk1
  have hkm : k ≤ m := by
    by_contra hcon
    have hmk : m + 1 ≤ k := by omega
    have : (2:ℕ) ^ m < 2 ^ k := by
      calc (2:ℕ) ^ m < 2 ^ (m + 1) := by
            have := Nat.pow_lt_pow_succ (show 1 < 2 by norm_num) (n := m)
            simpa using this
        _ ≤ 2 ^ k := Nat.pow_le_pow_right (by norm_num) hmk
    have h2 : 2 ^ k ≤ S := le_trans hk1 (Nat.div_le_self S N)
    rw [hS] at h2
    omega
  have hdvd : 2 ^ k ∣ S - 2 ^ k * N := by
    apply Nat.dvd_sub'
    · rw [hS]; exact pow_dvd_pow 2 hkm
    · exact dvd_mul_right _ _
  have hL : 2 ^ k * ((S - 2 ^ k * N) / 2 ^ k) = S - 2 ^ k * N :=
    Nat.mul_div_cancel' hdvd
  have hS2 : S < 2 ^ (k + 1) * N := (Nat.div_lt_iff_lt_mul hNpos).mp hk2
  have hpowsucc : (2:ℕ) ^ (k + 1) = 2 * 2 ^ k := by ring
  have hS2' : S < 2 * (2 ^ k * N) := by
    rw [hpowsucc, mul_assoc] at hS2
    exact hS2
  have hLN : (S - 2 ^ k * N) / 2 ^ k < N := by
    rw [Nat.div_lt_iff_lt_mul (by positivity : 0 < (2:ℕ) ^ k)]
    rw [mul_comm N]
    omega
  have hLpos : 0 < (S - 2 ^ k * N) / 2 ^ k → k + 1 ≤ m := by
    intro hpos
    have hne : S - 2 ^ k * N ≠ 0 := by
      intro h0
      simp [h0] at hpos
    have hkNlt : 2 ^ k * N < S := by omega
    have hkgt : (2:ℕ) ^ k < 2 ^ m := by
      have : (2:ℕ) ^ k ≤ 2 ^ k * N := Nat.le_mul_of_pos_right _ hNpos
      rw [hS] at hkNlt
      omega
    by_contra hcon
    have : m ≤ k := by omega
    have : (2:ℕ) ^ m ≤ 2 ^ k := Nat.pow_le_pow_right (by norm_num) this
    omega
  have haddr : P.addr + S ≤ 2 ^ 32 := by
    have hdvdaddr : 2 ^ m ∣ P.addr := Nat.dvd_of_mod_eq_zero hmod
    obtain ⟨q, hq⟩ := hdvdaddr
    have h32 : (2:ℕ) ^ 32 = 2 ^ m * 2 ^ (32 - m) := by
      rw [← pow_add]
      congr 1
      omega
    have hqlt : q < 2 ^ (32 - m) := by
      by_contra hcon
      have : (2:ℕ) ^ (32 - m) ≤ q := by omega
      have : (2:ℕ) ^ m * 2 ^ (32 - m) ≤ 2 ^ m * q := Nat.mul_le_mul_left _ this
      rw [← h32, ← hq] at this
      omega
    have : 2 ^ m * (q + 1) ≤ 2 ^ m * 2 ^ (32 - m) := by
      apply Nat.mul_le_mul_left
      omega
    rw [← h32] at this
    rw [hS, hq]
    calc 2 ^ m * q + 2 ^ m = 2 ^ m * (q + 1) := by ring
      _ ≤ 2 ^ 32 := this
  exact ⟨h1, hkm, hL, hLN, hLpos, haddr⟩

theorem fragSubnet_at (base k L N : ℕ) (hLN : L < N)
    (hk31 : 0 < L → k ≤ 31)
    (hbound : base + 2 ^ k * (N + L) ≤ 2 ^ 32) :
    ∀ i, i < N →
      ip4FragIterSubnet (fragIterate (mkFragIter base k L N) (i + 1)) =
        if i < L then
          ({ addr := base + i * 2 ^ (k + 1), prefixLen := 31 - k } : ip4Subnet)
        else
          ({ addr := base + L * 2 ^ (k + 1) + (i - L) * 2 ^ k,
             prefixLen := 32 - k } : ip4Subnet) := by
  intro i hi
  rw [fragIterate_spec base k L N hLN i hi]
  unfold ip4FragIterSubnet
  have hoff : 2 ^ k * (i + min i L) + 2 ^ k ≤ 2 ^ k * (N + L) := by
    have : i + min i L + 1 ≤ N + L := by omega
    calc 2 ^ k * (i + min i L) + 2 ^ k = 2 ^ k * (i + min i L + 1) := by ring
      _ ≤ 2 ^ k * (N + L) := Nat.mul_le_mul_left _ this
  have hmodeq : (base + 2 ^ k * (i + min i L)) % 2 ^ 32 =
      base + 2 ^ k * (i + min i L) := by
    apply Nat.mod_eq_of_lt
    have h2k : 0 < (2:ℕ) ^ k := by positivity
    omega
  by_cases hiL : i < L
  · have hmin : min i L = i := by omega
    have hk31' : k ≤ 31 := hk31 (by omega)
    rw [if_pos hiL]
    simp only [hmin] at hmodeq ⊢
    have hLgt : L - i > 0 := by omega
    rw [if_pos hLgt, hmodeq]
    have haddr : base + 2 ^ k * (i + i) = base + i * 2 ^ (k + 1) := by
      have : (2:ℕ) ^ (k + 1) = 2 * 2 ^ k := by ring
      rw [this]; ring
    have hpl : (32 - k + 255) % 256 = 31 - k := by omega
    rw [haddr, hpl]
  · have hmin : min i L = L := by omega
    rw [if_neg hiL]
    simp only [hmin] at hmodeq ⊢
    have hLgt : ¬(L - L > 0) := by omega
    rw [if_neg hLgt, hmodeq]
    have haddr : base + 2 ^ k * (i + L) =
        base + L * 2 ^ (k + 1) + (i - L) * 2 ^ k := by
      have h2 : (2:ℕ) ^ (k + 1) = 2 * 2 ^ k := by ring
      have h3 : i + L = 2 * L + (i - L) := by omega
      rw [h2, h3]
      ring
    rw [haddr]

theorem fragmentsOf_eq (P : ip4Subnet) (N : ℕ) (it : ip4FragIter)
    (h : ip4FragmentSubnet P N = some it) : fragmentsOf P N = fragList it N := by
  unfold fragmentsOf
  rw [h]

theorem fragList_mk_closedForm (base k L N : ℕ) (hLN : L < N)
    (hk31 : 0 < L → k ≤ 31) (hbound : base + 2 ^ k * (N + L) ≤ 2 ^ 32) :
    fragList (mkFragIter base k L N) N = fragClosedForm base k L N := by
  rw [fragList_eq_map _ _ (fragNext_true base k L N hLN)]
  unfold fragClosedForm
  apply List.map_congr_left
  intro i hi
  exact fragSubnet_at base k L N hLN hk31 hbound i (List.mem_range.mp hi)

theorem fragmentsOf_closedForm (P : ip4Subnet) (N : ℕ) (hc : ip4Canonical P)
    (hN : 1 ≤ N) (hNS : N ≤ ip4SubnetSize P false) :
    fragmentsOf P N =
      fragClosedForm P.addr (Nat.log2 (ip4SubnetSize P false / N))
        ((ip4SubnetSize P false -
            2 ^ Nat.log2 (ip4SubnetSize P false / N) * N) /
          2 ^ Nat.log2 (ip4SubnetSize P false / N)) N := by
  obtain ⟨h1, hkm, hL, hLN, hLpos, haddr⟩ := fragParams_facts P N hc hN hNS
  obtain ⟨hp32, hlt, hmod⟩ := hc
  rw [fragmentsOf_eq P N _ (ip4FragmentSubnet_eq_mk P N hNS)]
  apply fragList_mk_closedForm _ _ _ _ hLN
  · intro hLg
    have := hLpos hLg
    omega
  · have hsum : 2 ^ Nat.log2 (ip4SubnetSize P false / N) *
        (N + (ip4SubnetSize P false -
            2 ^ Nat.log2 (ip4SubnetSize P false / N) * N) /
          2 ^ Nat.log2 (ip4SubnetSize P false / N)) =
        ip4SubnetSize P false := by
      rw [Nat.mul_add]
      omega
    omega

theorem sum_range_if (L a b : ℕ) : ∀ N : ℕ,
    (((List.range N).map fun i => if i < L then a else b)).sum =
      min N L * a + (N - min N L) * b := by
  intro N
  induction N with
  | zero => simp
  | succ N ih =>
    rw [List.range_succ, List.map_append, List.sum_append]
    simp only [List.map_cons, List.map_nil, List.sum_cons, List.sum_nil, ih]
    by_cases hNL : N < L
    · have h1 : min N L = N := by omega
      have h2 : min (N + 1) L = N + 1 := by omega
      rw [if_pos hNL, h1, h2]
      simp only [Nat.sub_self]
      ring
    · have h1 : min N L = L := by omega
      have h2 : min (N + 1) L = L := by omega
      have h3 : N + 1 - L = (N - L) + 1 := by omega
      rw [if_neg hNL, h1, h2, h3]
      ring

theorem fragClosedForm_length (base k L N : ℕ) :
    (fragClosedForm base k L N).length = N := by
  simp [fragClosedForm]

theorem fragClosedForm_getElem (base k L N : ℕ) (i : ℕ)
    (h : i < (fragClosedForm base k L N).length) :
    (fragClosedForm base k L N)[i] =
      if i < L then
        ({ addr := base + i * 2 ^ (k + 1), prefixLen := 31 - k } : ip4Subnet)
      else
        ({ addr := base + L * 2 ^ (k + 1) + (i - L) * 2 ^ k,
           prefixLen := 32 - k } : ip4Subnet) := by
  simp [fragClosedForm]

theorem fragClosedForm_size (base k L N : ℕ) (hk31 : 0 < L → k ≤ 31)
    (hk32 : k ≤ 32) (i : ℕ) (h : i < (fragClosedForm base k L N).length) :
    ip4SubnetSize (fragClosedForm base k L N)[i] false =
      if i < L then 2 ^ (k + 1) else 2 ^ k := by
  rw [fragClosedForm_getElem base k L N i h]
  by_cases hiL : i < L
  · rw [if_pos hiL, if_pos hiL, ip4SubnetSize_false]
    show (2:ℕ) ^ (32 - (31 - k)) = 2 ^ (k + 1)
    have : k ≤ 31 := hk31 (by omega)
    congr 1
    omega
  · rw [if_neg hiL, if_neg hiL, ip4SubnetSize_false]
    show (2:ℕ) ^ (32 - (32 - k)) = 2 ^ k
    congr 1
    omega

theorem fragClosedForm_sum (base k L N : ℕ) (hk31 : 0 < L → k ≤ 31)
    (hk32 : k ≤ 32) (hLN : L ≤ N) :
    ((fragClosedForm base k L N).map fun f => ip4SubnetSize f false).sum =
      2 ^ k * (N + L) := by
  have hmap : (fragClosedForm base k L N).map (fun f => ip4SubnetSize f false) =
      (List.range N).map fun i => if i < L then 2 ^ (k + 1) else 2 ^ k := by
    unfold fragClosedForm
    rw [List.map_map]
    apply List.map_congr_left
    intro i hi
    have hiN : i < N := List.mem_range.mp hi
    simp only [Function.comp_apply]
    by_cases hiL : i < L
    · rw [if_pos hiL, if_pos hiL, ip4SubnetSize_false]
      show (2:ℕ) ^ (32 - (31 - k)) = 2 ^ (k + 1)
      have : k ≤ 31 := hk31 (by omega)
      congr 1
      omega
    · rw [if_neg hiL, if_neg hiL, ip4SubnetSize_false]
      show (2:ℕ) ^ (32 - (32 - k)) = 2 ^ k
      congr 1
      omega
  rw [hmap, sum_range_if]
  have h1 : min N L = L := by omega
  rw [h1]
  have h2 : (2:ℕ) ^ (k + 1) = 2 * 2 ^ k := by ring
  rw [h2]
  have h3 : N - L + (L + L) = N + L := by omega
  calc L * (2 * 2 ^ k) + (N - L) * 2 ^ k
      = 2 ^ k * (N - L) + 2 ^ k * (L + L) := by ring
    _ = 2 ^ k * (N - L + (L + L)) := by rw [Nat.mul_add, Nat.mul_add]; ring
    _ = 2 ^ k * (N + L) := by rw [h3]

theorem fragClosedForm_addr (base k L N : ℕ) (i : ℕ)
    (h : i < (fragClosedForm base k L N).length) :
    ((fragClosedForm base k L N)[i]).addr = base + 2 ^ k * (i + min i L) := by
  rw [fragClosedForm_getElem base k L N i h]
  by_cases hiL : i < L
  · rw [if_pos hiL]
    show base + i * 2 ^ (k + 1) = base + 2 ^ k * (i + min i L)
    have h1 : min i L = i := by omega
    have h2 : (2:ℕ) ^ (k + 1) = 2 * 2 ^ k := by ring
    rw [h1, h2]
    ring
  · rw [if_neg hiL]
    show base + L * 2 ^ (k + 1) + (i - L) * 2 ^ k = base + 2 ^ k * (i + min i L)
    have h1 : min i L = L := by omega
    obtain ⟨d, rfl⟩ : ∃ d, i = L + d := ⟨i - L, by omega⟩
    have h2 : (2:ℕ) ^ (k + 1) = 2 * 2 ^ k := by ring
    have h3 : L + d - L = d := by omega
    rw [h1, h2, h3]
    ring

theorem fragClosedForm_chain (base k L N : ℕ) (hk31 : 0 < L → k ≤ 31)
    (hk32 : k ≤ 32) :
    List.Chain' (fun f g => g.addr = f.addr + ip4SubnetSize f false)
      (fragClosedForm base k L N) := by
  rw [List.chain'_iff_get]
  intro i h
  have hlen : (fragClosedForm base k L N).length = N := fragClosedForm_length _ _ _ _
  simp only [List.get_eq_getElem]
  rw [fragClosedForm_addr base k L N (i + 1) (by omega),
    fragClosedForm_addr base k L N i (by omega),
    fragClosedForm_size base k L N hk31 hk32 i (by omega)]
  by_cases hiL : i < L
  · rw [if_pos hiL]
    have h1 : i + 1 + min (i + 1) L = (i + min i L) + 2 := by omega
    have h2 : (2:ℕ) ^ (k + 1) = 2 * 2 ^ k := by ring
    rw [h1, h2, Nat.mul_add]
    ring
  · rw [if_neg hiL]
    have h1 : i + 1 + min (i + 1) L = (i + min i L) + 1 := by omega
    rw [h1, Nat.mul_add]
    ring

theorem fragClosedForm_aligned (base k L N : ℕ) (hk31 : 0 < L → k ≤ 31)
    (hk32 : k ≤ 32) (hsm : 2 ^ k ∣ base) (hlg : 0 < L → 2 ^ (k + 1) ∣ base) :
    ∀ f ∈ fragClosedForm base k L N, f.addr % ip4SubnetSize f false = 0 := by
  intro f hf
  obtain ⟨i, hi, rfl⟩ := List.mem_iff_getElem.mp hf
  rw [fragClosedForm_size base k L N hk31 hk32 i hi,
    fragClosedForm_getElem base k L N i hi]
  by_cases hiL : i < L
  · rw [if_pos hiL, if_pos hiL]
    show (base + i * 2 ^ (k + 1)) % 2 ^ (k + 1) = 0
    rw [Nat.add_mul_mod_self_right]
    exact Nat.mod_eq_zero_of_dvd (hlg (by omega))
  · rw [if_neg hiL, if_neg hiL]
    show (base + L * 2 ^ (k + 1) + (i - L) * 2 ^ k) % 2 ^ k = 0
    rw [Nat.add_mul_mod_self_right]
    have h2 : L * 2 ^ (k + 1) = (L * 2) * 2 ^ k := by ring
    rw [h2, Nat.add_mul_mod_self_right]
    exact Nat.mod_eq_zero_of_dvd hsm

theorem fragClosedForm_pairwise (base k L N : ℕ) (hk31 : 0 < L → k ≤ 31)
    (hk32 : k ≤ 32) :
    List.Pairwise (fun f g => f.addr + ip4SubnetSize f false ≤ g.addr)
      (fragClosedForm base k L N) := by
  rw [List.pairwise_iff_getElem]
  intro i j hi hj hij
  rw [fragClosedForm_addr base k L N i hi, fragClosedForm_addr base k L N j hj,
    fragClosedForm_size base k L N hk31 hk32 i hi]
  by_cases hiL : i < L
  · rw [if_pos hiL]
    have h1 : (i + min i L) + 2 ≤ j + min j L := by omega
    have h2 : (2:ℕ) ^ (k + 1) = 2 * 2 ^ k := by ring
    have h3 : 2 ^ k * ((i + min i L) + 2) ≤ 2 ^ k * (j + min j L) :=
      Nat.mul_le_mul_left _ h1
    rw [h2]
    calc base + 2 ^ k * (i + min i L) + 2 * 2 ^ k
        = base + 2 ^ k * ((i + min i L) + 2) := by ring
      _ ≤ base + 2 ^ k * (j + min j L) := by omega
  · rw [if_neg hiL]
    have h1 : (i + min i L) + 1 ≤ j + min j L := by omega
    have h3 : 2 ^ k * ((i + min i L) + 1) ≤ 2 ^ k * (j + min j L) :=
      Nat.mul_le_mul_left _ h1
    calc base + 2 ^ k * (i + min i L) + 2 ^ k
        = base + 2 ^ k * ((i + min i L) + 1) := by ring
      _ ≤ base + 2 ^ k * (j + min j L) := by omega

/-! ## Lemmas about the avoiding iterator (claim C1) -/

theorem le_or_self (a : ℕ) : ∀ b : ℕ, a ≤ a ||| b := by
  induction a using Nat.strong_induction_on with
  | _ a ih =>
    intro b
    rcases Nat.eq_zero_or_pos a with h0 | hpos
    · subst h0; simp
    · have h2 : a / 2 < a := Nat.div_lt_self hpos (by norm_num)
      have ih2 := ih (a / 2) h2 (b / 2)
      have hm : a % 2 ≤ (a ||| b) % 2 := by
        rcases Nat.mod_two_eq_zero_or_one a with h | h
        · omega
        · have : (a ||| b) % 2 = 1 := Nat.or_mod_two_eq_one.mpr (Or.inl h)
          omega
      have hd : (a ||| b) / 2 = a / 2 ||| b / 2 := Nat.or_div_two
      have e1 := Nat.div_add_mod a 2
      have e2 := Nat.div_add_mod (a ||| b) 2
      omega

theorem subnetStart_le_subnetEnd (s : ip4Subnet) :
    ip4SubnetStart s ≤ ip4SubnetEnd s :=
  le_or_self s.addr (ip4HostMask s)

theorem rangeLE_total (r s : ignoreRange) :
    rangeLE r s = true ∨ rangeLE s r = true := by
  unfold rangeLE
  rcases lt_trichotomy r.start s.start with h | h | h
  · left; simp [h]
  · rcases le_total s.stop r.stop with h2 | h2
    · left; simp [h, h2]
    · right; simp [h.symm, h2]
  · right; simp [h]

theorem rangeLE_trans (r s t : ignoreRange) (h1 : rangeLE r s = true)
    (h2 : rangeLE s t = true) : rangeLE r t = true := by
  unfold rangeLE at *
  simp only [Bool.or_eq_true, Bool.and_eq_true, decide_eq_true_iff] at *
  omega

theorem rangeLE_start_le (r s : ignoreRange) (h : rangeLE r s = true) :
    r.start ≤ s.start := by
  unfold rangeLE at h
  simp only [Bool.or_eq_true, Bool.and_eq_true, decide_eq_true_iff] at h
  omega

theorem insertRange_perm (r : ignoreRange) (l : List ignoreRange) :
    List.Perm (insertRange r l) (r :: l) := by
  induction l with
  | nil => simp [insertRange]
  | cons x xs ih =>
    unfold insertRange
    by_cases h : rangeLE r x = true
    · rw [if_pos h]
    · rw [if_neg h]
      exact List.Perm.trans (List.Perm.cons x ih) (List.Perm.swap r x xs)

theorem sortRanges_perm (l : List ignoreRange) : List.Perm (sortRanges l) l := by
  induction l with
  | nil => simp [sortRanges]
  | cons x xs ih =>
    unfold sortRanges at *
    exact List.Perm.trans (insertRange_perm x (List.foldr insertRange [] xs))
      (List.Perm.cons x ih)

theorem insertRange_sorted (r : ignoreRange) (l : List ignoreRange)
    (h : List.Pairwise (fun a b => rangeLE a b = true) l) :
    List.Pairwise (fun a b => rangeLE a b = true) (insertRange r l) := by
  induction l with
  | nil => simp [insertRange]
  | cons x xs ih =>
    unfold insertRange
    by_cases hrx : rangeLE r x = true
    · rw [if_pos hrx]
      apply List.Pairwise.cons
      · intro b hb
        rcases List.mem_cons.mp hb with h0 | h0
        · subst h0; exact hrx
        · exact rangeLE_trans r x b hrx ((List.pairwise_cons.mp h).1 b h0)
      · exact h
    · rw [if_neg hrx]
      obtain ⟨hx, hxs⟩ := List.pairwise_cons.mp h
      apply List.Pairwise.cons
      · intro b hb
        have hb' := (insertRange_perm r xs).mem_iff.mp hb
        rcases List.mem_cons.mp hb' with h0 | h0
        · subst h0
          rcases rangeLE_total x b with h1 | h1
          · exact h1
          · exact absurd h1 hrx
        · exact hx b h0
      · exact ih hxs

theorem sortRanges_sorted (l : List ignoreRange) :
    List.Pairwise (fun a b => rangeLE a b = true) (sortRanges l) := by
  induction l with
  | nil => simp [sortRanges]
  | cons x xs ih => exact insertRange_sorted x _ ih

theorem freeOf_perm (l l' : List ignoreRange) (h : List.Perm l l') (a : ℤ) :
    freeOf l a = freeOf l' a := by
  unfold freeOf
  rcases hb : l'.all (fun r => !(ip4RangeContains r a)) with hf | ht
  · rw [Bool.eq_false_iff]
    intro hcon
    rw [List.all_eq_true] at hcon
    have : l'.all (fun r => !(ip4RangeContains r a)) = true := by
      rw [List.all_eq_true]
      intro r hr
      exact hcon r (h.mem_iff.mpr hr)
    rw [hb] at this
    exact Bool.false_ne_true this
  · rw [List.all_eq_true] at hb ⊢
    intro r hr
    exact hb r (h.mem_iff.mp hr)

theorem freeOf_false_of_mem (igs : List ignoreRange) (r : ignoreRange)
    (hr : r ∈ igs) (a : ℤ) (h1 : r.start ≤ a) (h2 : a ≤ r.stop) :
    freeOf igs a = false := by
  unfold freeOf
  rw [Bool.eq_false_iff]
  intro hcon
  rw [List.all_eq_true] at hcon
  have := hcon r hr
  simp only [ip4RangeContains, Bool.not_eq_true', Bool.and_eq_false_iff,
    decide_eq_false_iff_not] at this
  omega

theorem intRange_mem (s e a : ℤ) : a ∈ intRange s e ↔ s ≤ a ∧ a ≤ e := by
  unfold intRange
  rw [List.mem_map]
  constructor
  · rintro ⟨i, hi, rfl⟩
    rw [List.mem_range] at hi
    omega
  · rintro ⟨h1, h2⟩
    refine ⟨(a - s).toNat, ?_, by omega⟩
    rw [List.mem_range]
    omega

theorem intRange_empty (s e : ℤ) (h : e < s) : intRange s e = [] := by
  unfold intRange
  rw [show (e + 1 - s).toNat = 0 by omega]
  simp

theorem intRange_cons (s e : ℤ) (h : s ≤ e) :
    intRange s e = s :: intRange (s + 1) e := by
  unfold intRange
  rw [show (e + 1 - s).toNat = (e + 1 - (s + 1)).toNat + 1 by omega]
  rw [List.range_succ_eq_map]
  simp only [List.map_cons, List.map_map]
  refine List.cons_eq_cons.mpr ⟨by omega, ?_⟩
  apply List.map_congr_left
  intro i hi
  simp only [Function.comp_apply]
  push_cast
  ring

theorem intRange_append (s m e : ℤ) (h1 : s ≤ m) (h2 : m ≤ e + 1) :
    intRange s e = intRange s (m - 1) ++ intRange m e := by
  unfold intRange
  rw [show (e + 1 - s).toNat = (m - 1 + 1 - s).toNat + (e + 1 - m).toNat by omega]
  rw [List.range_add, List.map_append, List.map_map]
  congr 1
  apply List.map_congr_left
  intro i hi
  simp only [Function.comp_apply]
  have : ((m - 1 + 1 - s).toNat : ℤ) = m - s := by omega
  push_cast
  omega

theorem skipDead_spec (igs : List ignoreRange) (cur : ℤ) :
    ∀ (fuel idx : ℕ), igs.length ≤ fuel + idx →
      idx ≤ skipDead igs cur fuel idx ∧
      (idx ≤ igs.length → skipDead igs cur fuel idx ≤ igs.length) ∧
      (∀ i, idx ≤ i → i < skipDead igs cur fuel idx →
        ∀ r, igs[i]? = some r → r.stop < cur) ∧
      (∀ r, igs[skipDead igs cur fuel idx]? = some r → cur ≤ r.stop) := by
  intro fuel
  induction fuel with
  | zero =>
    intro idx hlen
    simp only [skipDead]
    refine ⟨le_refl _, fun h => by omega, fun i h1 h2 => by omega, fun r hr => ?_⟩
    have := (List.getElem?_eq_some.mp hr).1
    omega
  | succ fuel ih =>
    intro idx hlen
    cases hidx : igs[idx]? with
    | none =>
      simp only [skipDead, hidx]
      have hlen2 : igs.length ≤ idx := List.getElem?_eq_none_iff.mp hidx
      refine ⟨le_refl _, fun h => by omega, fun i h1 h2 => by omega, fun r hr => ?_⟩
      simp at hr
    | some r =>
      simp only [skipDead, hidx]
      by_cases hstop : r.stop < cur
      · rw [if_pos hstop]
        have hlt : idx < igs.length := (List.getElem?_eq_some.mp hidx).1
        obtain ⟨ih1, ih2, ih3, ih4⟩ := ih (idx + 1) (by omega)
        refine ⟨by omega, fun h => ih2 (by omega), ?_, ih4⟩
        intro i h1 h2 r' hr'
        by_cases hieq : i = idx
        · subst hieq
          rw [hidx] at hr'
          injection hr' with h
          subst h
          exact hstop
        · exact ih3 i (by omega) h2 r' hr'
      · rw [if_neg hstop]
        refine ⟨le_refl _, fun h => h, fun i h1 h2 => by omega, fun r' hr' => ?_⟩
        rw [hidx] at hr'
        injection hr' with h
        subst h
        omega

theorem sorted_start_mono (igs : List ignoreRange)
    (hs : List.Pairwise (fun a b => rangeLE a b = true) igs)
    (i j : ℕ) (hij : i ≤ j) (r r' : ignoreRange)
    (hi : igs[i]? = some r) (hj : igs[j]? = some r') : r.start ≤ r'.start := by
  rcases eq_or_lt_of_le hij with heq | hlt
  · subst heq
    rw [hi] at hj
    injection hj with h
    subst h
    exact le_refl _
  · have hilen := (List.getElem?_eq_some.mp hi).1
    have hjlen := (List.getElem?_eq_some.mp hj).1
    have hpw := List.pairwise_iff_getElem.mp hs i j hilen hjlen hlt
    have e1 : igs[i] = r := (List.getElem?_eq_some.mp hi).2
    have e2 : igs[j] = r' := (List.getElem?_eq_some.mp hj).2
    rw [e1, e2] at hpw
    exact rangeLE_start_le r r' hpw

theorem skipLoop_spec (igs : List ignoreRange)
    (hs : List.Pairwise (fun a b => rangeLE a b = true) igs)
    (hwf : ∀ r ∈ igs, r.start ≤ r.stop) :
    ∀ (fuel : ℕ) (cur : ℤ) (idx : ℕ),
      igs.length + 1 ≤ fuel + idx → idx ≤ igs.length →
      (∀ i, i < idx → ∀ r, igs[i]? = some r → r.stop < cur) →
      (∀ r, igs[idx]? = some r → cur ≤ r.stop) →
      cur ≤ (skipLoop igs fuel cur idx).1 ∧
      (skipLoop igs fuel cur idx).2 ≤ igs.length ∧
      freeOf igs (skipLoop igs fuel cur idx).1 = true ∧
      (∀ a, cur ≤ a → a < (skipLoop igs fuel cur idx).1 → freeOf igs a = false) ∧
      (∀ i, i < (skipLoop igs fuel cur idx).2 →
        ∀ r, igs[i]? = some r → r.stop < (skipLoop igs fuel cur idx).1) ∧
      (∀ r, igs[(skipLoop igs fuel cur idx).2]? = some r →
        (skipLoop igs fuel cur idx).1 < r.start) := by
  intro fuel
  induction fuel with
  | zero =>
    intro cur idx h1 h2 _ _
    exfalso
    omega
  | succ fuel ih =>
    intro cur idx hfuel hidxle hpassed hahead
    cases hidx : igs[idx]? with
    | none =>
      simp only [skipLoop, hidx]
      have hlen2 : igs.length ≤ idx := List.getElem?_eq_none_iff.mp hidx
      have hfree : freeOf igs cur = true := by
        unfold freeOf
        rw [List.all_eq_true]
        intro r hr
        obtain ⟨i, hilen, heq⟩ := List.mem_iff_getElem.mp hr
        have hsome : igs[i]? = some r := by
          rw [List.getElem?_eq_getElem hilen, heq]
        have hstop := hpassed i (by omega) r hsome
        simp only [ip4RangeContains, Bool.not_eq_true', Bool.and_eq_false_iff,
          decide_eq_false_iff_not]
        omega
      exact ⟨le_refl _, by omega, hfree, fun a ha1 ha2 => by omega, hpassed,
        fun r hr => by simp at hr⟩
    | some r =>
      have hidxlt : idx < igs.length := (List.getElem?_eq_some.mp hidx).1
      have hrmem : r ∈ igs := List.getElem?_mem hidx
      by_cases hin : (decide (r.start ≤ cur) && decide (cur ≤ r.stop)) = true
      · have hin2 : r.start ≤ cur ∧ cur ≤ r.stop := by
          simpa [Bool.and_eq_true, decide_eq_true_iff] using hin
        simp only [skipLoop, hidx]
        rw [if_pos hin]
        obtain ⟨hd1, hd2, hd3, hd4⟩ :=
          skipDead_spec igs (r.stop + 1) igs.length (idx + 1) (by omega)
        have hidxle' : skipDead igs (r.stop + 1) igs.length (idx + 1) ≤ igs.length :=
          hd2 (by omega)
        have hpassed' : ∀ i, i < skipDead igs (r.stop + 1) igs.length (idx + 1) →
            ∀ r', igs[i]? = some r' → r'.stop < r.stop + 1 := by
          intro i hi r' hr'
          by_cases hii : i < idx
          · have := hpassed i hii r' hr'
            omega
          · by_cases hieq : i = idx
            · subst hieq
              rw [hidx] at hr'
              injection hr' with h
              subst h
              omega
            · exact hd3 i (by omega) hi r' hr'
        obtain ⟨ih1, ih2, ih3, ih4, ih5, ih6⟩ :=
          ih (r.stop + 1) (skipDead igs (r.stop + 1) igs.length (idx + 1))
            (by omega) hidxle' hpassed' hd4
        refine ⟨by omega, ih2, ih3, ?_, ih5, ih6⟩
        intro a ha1 ha2
        by_cases hale : a ≤ r.stop
        · exact freeOf_false_of_mem igs r hrmem a (by omega) hale
        · exact ih4 a (by omega) ha2
      · have hnot : ¬(r.start ≤ cur ∧ cur ≤ r.stop) := by
          intro hcon
          apply hin
          simp [Bool.and_eq_true, decide_eq_true_iff]
          omega
        have hcur_stop : cur ≤ r.stop := hahead r hidx
        have hcurlt : cur < r.start := by
          by_contra hcon
          exact hnot ⟨by omega, hcur_stop⟩
        simp only [skipLoop, hidx]
        rw [if_neg hin]
        have hfree : freeOf igs cur = true := by
          unfold freeOf
          rw [List.all_eq_true]
          intro r' hr'
          obtain ⟨i, hilen, heq⟩ := List.mem_iff_getElem.mp hr'
          have hsome : igs[i]? = some r' := by
            rw [List.getElem?_eq_getElem hilen, heq]
          simp only [ip4RangeContains, Bool.not_eq_true', Bool.and_eq_false_iff,
            decide_eq_false_iff_not]
          by_cases hii : i < idx
          · have := hpassed i hii r' hsome
            omega
          · have := sorted_start_mono igs hs idx i (by omega) r r' hidx hsome
            omega
        refine ⟨le_refl _, by omega, hfree, fun a ha1 ha2 => by omega, hpassed, ?_⟩
        intro r' hr'
        rw [hidx] at hr'
        injection hr' with h
        subst h
        exact hcurlt

/-- The invariant maintained by `ip4IterNext` between calls: the ignore
list is sorted, ranges are proper, the cursor is in bounds, every range
before the cursor ends strictly before the next candidate address, and
the cursor's range (when present) ends after the current address. -/
structure IterInv (it : ip4Iter) : Prop where
  sorted : List.Pairwise (fun a b => rangeLE a b = true) it.ignores
  wf : ∀ r ∈ it.ignores, r.start ≤ r.stop
  idx_le : it.currentIgnoreNum ≤ it.ignores.length
  passed : ∀ j, j < it.currentIgnoreNum →
    ∀ r, it.ignores[j]? = some r → r.stop < it.currentAddr + 1
  ahead : ∀ r, it.ignores[it.currentIgnoreNum]? = some r →
    it.currentAddr < r.stop

theorem ip4IterNext_spec (it : ip4Iter) (inv : IterInv it) :
    IterInv (ip4IterNext it).2 ∧
    (ip4IterNext it).2.ignores = it.ignores ∧
    (ip4IterNext it).2.finalAddr = it.finalAddr ∧
    (it.finalAddr ≤ it.currentAddr →
      (ip4IterNext it).1 = false ∧ (ip4IterNext it).2 = it) ∧
    (it.currentAddr < it.finalAddr →
      it.currentAddr < (ip4IterNext it).2.currentAddr ∧
      freeOf it.ignores (ip4IterNext it).2.currentAddr = true ∧
      (∀ a, it.currentAddr < a → a < (ip4IterNext it).2.currentAddr →
        freeOf it.ignores a = false) ∧
      (ip4IterNext it).1 =
        decide ((ip4IterNext it).2.currentAddr ≤ it.finalAddr)) := by
  by_cases hfin : it.finalAddr ≤ it.currentAddr
  · unfold ip4IterNext
    rw [if_pos hfin]
    exact ⟨inv, rfl, rfl, fun _ => ⟨rfl, rfl⟩, fun h => by omega⟩
  · have hlt : it.currentAddr < it.finalAddr := by omega
    obtain ⟨h1, h2, h3, h4, h5, h6⟩ :=
      skipLoop_spec it.ignores inv.sorted inv.wf (it.ignores.length + 1)
        (it.currentAddr + 1) it.currentIgnoreNum (by omega) inv.idx_le
        (fun i hi r hr => inv.passed i hi r hr)
        (fun r hr => by have := inv.ahead r hr; omega)
    have hnext : ip4IterNext it =
        (decide ((skipLoop it.ignores (it.ignores.length + 1)
            (it.currentAddr + 1) it.currentIgnoreNum).1 ≤ it.finalAddr),
          { it with
            currentAddr := (skipLoop it.ignores (it.ignores.length + 1)
              (it.currentAddr + 1) it.currentIgnoreNum).1
            currentIgnoreNum := (skipLoop it.ignores (it.ignores.length + 1)
              (it.currentAddr + 1) it.currentIgnoreNum).2 }) := by
      unfold ip4IterNext
      rw [if_neg hfin]
    rw [hnext]
    simp only []
    refine ⟨?_, trivial, trivial, fun h => absurd h hfin, fun h => ⟨by omega, h3, ?_, trivial⟩⟩
    · refine ⟨inv.sorted, inv.wf, h2, ?_, ?_⟩
      · intro j hj r hr
        simp only [] at hj hr ⊢
        have := h5 j hj r hr
        omega
      · intro r hr
        simp only [] at hr ⊢
        have hstart := h6 r hr
        have hmem : r ∈ it.ignores := List.getElem?_mem hr
        have := inv.wf r hmem
        omega
    · intro a ha1 ha2
      exact h4 a (by omega) ha2

theorem iterRun_spec : ∀ (fuel : ℕ) (it : ip4Iter), IterInv it →
    (it.finalAddr - it.currentAddr).toNat ≤ fuel →
    -1 ≤ it.currentAddr → it.finalAddr < 2 ^ 32 →
    iterRun it fuel =
      (intRange (it.currentAddr + 1) it.finalAddr).filter (freeOf it.ignores) := by
  intro fuel
  induction fuel with
  | zero =>
    intro it inv hfuel hc hf
    have : it.finalAddr ≤ it.currentAddr := by omega
    rw [intRange_empty _ _ (by omega)]
    simp [iterRun]
  | succ fuel ih =>
    intro it inv hfuel hc hf
    obtain ⟨inv', hig, hfin, hstop, hstep⟩ := ip4IterNext_spec it inv
    by_cases hend : it.finalAddr ≤ it.currentAddr
    · obtain ⟨hres, heq⟩ := hstop hend
      simp only [iterRun, hres, Bool.false_eq_true, if_false]
      rw [intRange_empty _ _ (by omega)]
      simp
    · obtain ⟨hgt, hfree, hmin, hres⟩ := hstep (by omega)
      by_cases hok : (ip4IterNext it).2.currentAddr ≤ it.finalAddr
      · have hres' : (ip4IterNext it).1 = true := by
          rw [hres, decide_eq_true_iff]
          exact hok
        simp only [iterRun, hres', if_true]
        have haddr : ip4IterAddr (ip4IterNext it).2 =
            (ip4IterNext it).2.currentAddr := by
          unfold ip4IterAddr
          rw [Int.emod_eq_of_lt (by omega) (by omega)]
        have hrec := ih (ip4IterNext it).2 inv' (by rw [hfin]; omega)
          (by omega) (by rw [hfin]; exact hf)
        rw [haddr, hrec, hig, hfin]
        rw [intRange_append (it.currentAddr + 1) ((ip4IterNext it).2.currentAddr)
          it.finalAddr (by omega) (by omega)]
        rw [intRange_cons ((ip4IterNext it).2.currentAddr) it.finalAddr (by omega)]
        rw [List.filter_append]
        have hnil : (intRange (it.currentAddr + 1)
            ((ip4IterNext it).2.currentAddr - 1)).filter (freeOf it.ignores) = [] := by
          rw [List.filter_eq_nil_iff]
          intro a ha
          rw [intRange_mem] at ha
          rw [hmin a (by omega) (by omega)]
          simp
        rw [hnil, List.nil_append, List.filter_cons, if_pos (by rw [hfree])]
      · have hres' : (ip4IterNext it).1 = false := by
          rw [hres, decide_eq_false_iff_not]
          omega
        simp only [iterRun, hres', Bool.false_eq_true, if_false]
        symm
        rw [List.filter_eq_nil_iff]
        intro a ha
        rw [intRange_mem] at ha
        rw [hmin a (by omega) (by omega)]
        simp

theorem ip4NewIter_false_components (P : ip4Subnet) (avoid : List ip4Subnet) :
    ip4NewIter P false avoid =
      { currentAddr := (ip4SubnetStart P : ℤ) - 1
        finalAddr := (ip4SubnetEnd P : ℤ)
        ignores := sortRanges (avoid.map subnetToRange)
        currentIgnoreNum := 0 } := by
  unfold ip4NewIter
  simp

theorem ip4NewIter_inv (P : ip4Subnet) (avoid : List ip4Subnet)
    (hB : ∀ A ∈ avoid, ip4SubnetStart P ≤ ip4SubnetEnd A) :
    IterInv (ip4NewIter P false avoid) := by
  rw [ip4NewIter_false_components]
  refine ⟨sortRanges_sorted _, ?_, by simp, ?_, ?_⟩
  · intro r hr
    simp only [] at hr
    have hmem := (sortRanges_perm _).mem_iff.mp hr
    obtain ⟨A, hA, rfl⟩ := List.mem_map.mp hmem
    unfold subnetToRange
    simp only []
    exact_mod_cast subnetStart_le_subnetEnd A
  · intro j hj r hr
    simp at hj
  · intro r hr
    simp only [] at hr ⊢
    have hmem := List.getElem?_mem hr
    have hmem2 := (sortRanges_perm _).mem_iff.mp hmem
    obtain ⟨A, hA, hAr⟩ := List.mem_map.mp hmem2
    have hle := hB A hA
    subst hAr
    unfold subnetToRange ip4SubnetStart at *
    simp only []
    omega

theorem subnetEnd_lt_two_pow (P : ip4Subnet) (h : P.addr < 2 ^ 32) :
    ip4SubnetEnd P < 2 ^ 32 := by
  unfold ip4SubnetEnd ip4HostMask
  apply Nat.or_lt_two_pow h
  have h1 : (2:ℕ) ^ (32 - P.prefixLen) ≤ 2 ^ 32 :=
    Nat.pow_le_pow_right (by norm_num) (by omega)
  omega

/-! ## Lemmas about decimal printing and parsing (claim C10) -/

theorem charVal_digitChar (d : ℕ) (h : d < 10) : charVal (digitChar d) = d := by
  interval_cases d <;> decide

theorem isDigitChar_digitChar (d : ℕ) (h : d < 10) :
    isDigitChar (digitChar d) = true := by
  interval_cases d <;> decide

theorem digitChar_ne_dot (d : ℕ) (h : d < 10) : digitChar d ≠ '.' := by
  interval_cases d <;> decide

theorem digitChar_ne_slash (d : ℕ) (h : d < 10) : digitChar d ≠ '/' := by
  interval_cases d <;> decide

theorem digitChar_ne_plus (d : ℕ) (h : d < 10) : digitChar d ≠ '+' := by
  interval_cases d <;> decide

theorem digitChar_ne_minus (d : ℕ) (h : d < 10) : digitChar d ≠ '-' := by
  interval_cases d <;> decide

theorem digitChar_not_space (d : ℕ) (h : d < 10) :
    isSpaceChar (digitChar d) = false := by
  interval_cases d <;> decide

theorem digitChar_eq_zero_iff (d : ℕ) (h : d < 10) :
    digitChar d = '0' ↔ d = 0 := by
  interval_cases d <;> simp <;> decide

theorem natDigitsAux_lt (fuel : ℕ) : ∀ n, n ≤ fuel →
    ∀ d ∈ natDigitsAux fuel n, d < 10 := by
  induction fuel with
  | zero => intro n h d hd; simp [natDigitsAux] at hd
  | succ fuel ih =>
    intro n h d hd
    simp only [natDigitsAux] at hd
    by_cases h10 : n < 10
    · rw [if_pos h10] at hd
      simp at hd
      omega
    · rw [if_neg h10] at hd
      rcases List.mem_cons.mp hd with h0 | h0
      · omega
      · exact ih (n / 10) (by omega) d h0

theorem natDigitsAux_ne_nil (fuel n : ℕ) :
    natDigitsAux (fuel + 1) n ≠ [] := by
  simp only [natDigitsAux]
  by_cases h10 : n < 10
  · rw [if_pos h10]; simp
  · rw [if_neg h10]; simp

theorem natDigitsAux_getLast (fuel : ℕ) : ∀ n, n ≤ fuel → 1 ≤ n →
    ∀ d, (natDigitsAux fuel n).getLast? = some d → d ≠ 0 := by
  induction fuel with
  | zero => intro n h1 h2; omega
  | succ fuel ih =>
    intro n h1 h2 d hd
    simp only [natDigitsAux] at hd
    by_cases h10 : n < 10
    · rw [if_pos h10] at hd
      simp at hd
      omega
    · rw [if_neg h10] at hd
      obtain ⟨f2, hf2⟩ : ∃ f2 : ℕ, fuel = f2 + 1 := ⟨fuel - 1, by omega⟩
      have hne : natDigitsAux fuel (n / 10) ≠ [] := by
        rw [hf2]
        exact natDigitsAux_ne_nil f2 (n / 10)
      obtain ⟨y, ys, hys⟩ : ∃ y ys, natDigitsAux fuel (n / 10) = y :: ys := by
        cases hh : natDigitsAux fuel (n / 10) with
        | nil => exact absurd hh hne
        | cons y ys => exact ⟨y, ys, rfl⟩
      rw [hys, List.getLast?_cons_cons, ← hys] at hd
      exact ih (n / 10) (by omega) (by omega) d hd

theorem parseDigitsVal_natDigits (fuel : ℕ) : ∀ n a, n ≤ fuel →
    List.foldl (fun acc c => acc * 10 + charVal c) a
        ((natDigitsAux fuel n).reverse.map digitChar) =
      a * 10 ^ (natDigitsAux fuel n).length + n := by
  induction fuel with
  | zero =>
    intro n a h
    have hn : n = 0 := by omega
    subst hn
    simp [natDigitsAux]
  | succ fuel ih =>
    intro n a h
    simp only [natDigitsAux]
    by_cases h10 : n < 10
    · rw [if_pos h10]
      simp [charVal_digitChar n h10]
    · rw [if_neg h10]
      simp only [List.reverse_cons, List.map_append, List.map_cons, List.map_nil,
        List.foldl_append, List.foldl_cons, List.foldl_nil]
      rw [ih (n / 10) a (by omega)]
      rw [charVal_digitChar (n % 10) (by omega)]
      simp only [List.length_cons]
      have : 10 ^ ((natDigitsAux fuel (n / 10)).length + 1) =
          10 ^ (natDigitsAux fuel (n / 10)).length * 10 := by ring
      rw [this]
      have hdm : n / 10 * 10 + n % 10 = n := by omega
      calc (a * 10 ^ (natDigitsAux fuel (n / 10)).length + n / 10) * 10 + n % 10
          = a * (10 ^ (natDigitsAux fuel (n / 10)).length * 10) +
            (n / 10 * 10 + n % 10) := by ring
        _ = a * (10 ^ (natDigitsAux fuel (n / 10)).length * 10) + n := by rw [hdm]

theorem parseDigitsVal_natChars (n : ℕ) : parseDigitsVal (natChars n) = n := by
  unfold parseDigitsVal natChars
  rw [parseDigitsVal_natDigits (n + 1) n 0 (by omega)]
  simp

theorem natChars_digits (n : ℕ) : ∀ c ∈ natChars n, isDigitChar c = true := by
  intro c hc
  unfold natChars at hc
  rw [List.mem_map] at hc
  obtain ⟨d, hd, rfl⟩ := hc
  rw [List.mem_reverse] at hd
  exact isDigitChar_digitChar d (natDigitsAux_lt (n + 1) n (by omega) d hd)

theorem natChars_ne_nil (n : ℕ) : natChars n ≠ [] := by
  unfold natChars
  simp only [ne_eq, List.map_eq_nil_iff, List.reverse_eq_nil_iff]
  exact natDigitsAux_ne_nil n n

theorem natChars_zero : natChars 0 = ['0'] := by decide

theorem natChars_no_leading_zero (n : ℕ) :
    natChars n = ['0'] ∨ (natChars n).head? ≠ some '0' := by
  by_cases hn : n = 0
  · subst hn
    left
    exact natChars_zero
  · right
    unfold natChars
    rw [List.head?_map, List.head?_reverse]
    intro hcon
    rw [Option.map_eq_some'] at hcon
    obtain ⟨d, hd, hdz⟩ := hcon
    have hd10 : d < 10 := by
      apply natDigitsAux_lt (n + 1) n (by omega)
      exact List.mem_of_mem_getLast? hd
    have : d ≠ 0 := natDigitsAux_getLast (n + 1) n (by omega) (by omega) d hd
    exact this ((digitChar_eq_zero_iff d hd10).mp hdz)

theorem parseOctet_natChars (b : ℕ) (hb : b ≤ 255) :
    parseOctet (natChars b) = some b := by
  unfold parseOctet
  rw [if_pos, parseDigitsVal_natChars]
  refine ⟨natChars_ne_nil b, natChars_digits b, ?_, ?_⟩
  · rcases natChars_no_leading_zero b with h | h
    · left; exact h
    · right; exact h
  · rw [parseDigitsVal_natChars]; exact hb

theorem splitOn_cons_eq (sep c : Char) (rest : List Char) :
    splitOn sep (c :: rest) =
      match splitOn sep rest with
      | [] => [[c]]
      | g :: gs => if c = sep then [] :: g :: gs else (c :: g) :: gs := rfl

theorem splitOn_ne_nil (sep : Char) (l : List Char) : splitOn sep l ≠ [] := by
  cases l with
  | nil => simp [splitOn]
  | cons c rest =>
    rw [splitOn_cons_eq]
    cases h : splitOn sep rest with
    | nil => simp
    | cons g gs =>
      by_cases hc : c = sep <;> simp [hc]

theorem splitOn_not_mem (sep : Char) (l : List Char) (h : sep ∉ l) :
    splitOn sep l = [l] := by
  induction l with
  | nil => simp [splitOn]
  | cons c rest ih =>
    have hc : c ≠ sep := by
      intro hcon
      exact h (hcon ▸ List.mem_cons_self c rest)
    have hrest : sep ∉ rest := fun hcon => h (List.mem_cons_of_mem c hcon)
    rw [splitOn_cons_eq, ih hrest]
    simp [hc]

theorem splitOn_append (sep : Char) (a b : List Char) (h : sep ∉ a) :
    splitOn sep (a ++ sep :: b) = a :: splitOn sep b := by
  induction a with
  | nil =>
    rw [List.nil_append, splitOn_cons_eq]
    cases hb : splitOn sep b with
    | nil => exact absurd hb (splitOn_ne_nil sep b)
    | cons g gs => simp
  | cons c a' ih =>
    have hc : c ≠ sep := by
      intro hcon
      exact h (hcon ▸ List.mem_cons_self c a')
    have ha' : sep ∉ a' := fun hcon => h (List.mem_cons_of_mem c hcon)
    rw [List.cons_append, splitOn_cons_eq, ih ha']
    simp [hc]

theorem natChars_not_mem_dot (n : ℕ) : '.' ∉ natChars n := by
  intro hcon
  have := natChars_digits n '.' hcon
  simp [isDigitChar] at this

theorem inetPton4_roundTrip (a : ℕ) (ha : a < 2 ^ 32) :
    inetPton4 (ip4AddrToString a) = some a := by
  unfold inetPton4 ip4AddrToString
  simp only [List.append_assoc, List.cons_append]
  rw [splitOn_append _ _ _ (natChars_not_mem_dot _),
    splitOn_append _ _ _ (natChars_not_mem_dot _),
    splitOn_append _ _ _ (natChars_not_mem_dot _),
    splitOn_not_mem _ _ (natChars_not_mem_dot _)]
  simp only []
  rw [parseOctet_natChars _ (by omega), parseOctet_natChars _ (by omega),
    parseOctet_natChars _ (by omega), parseOctet_natChars _ (by omega)]
  simp only [Option.bind_eq_bind, Option.some_bind]
  congr 1
  omega

theorem takeWhile_all_true (p : Char → Bool) (l : List Char)
    (h : ∀ c ∈ l, p c = true) : l.takeWhile p = l := by
  induction l with
  | nil => simp
  | cons c rest ih =>
    rw [List.takeWhile_cons, if_pos (h c (by simp))]
    rw [ih (fun x hx => h x (by simp [hx]))]

theorem natChars_head_digit (n : ℕ) :
    ∃ d cs, natChars n = digitChar d :: cs ∧ d < 10 := by
  cases hds : (natDigitsAux (n + 1) n).reverse with
  | nil =>
    exact absurd (by unfold natChars; rw [hds]; rfl) (natChars_ne_nil n)
  | cons d ds' =>
    refine ⟨d, ds'.map digitChar, ?_, ?_⟩
    · unfold natChars
      rw [hds]
      simp
    · have : d ∈ natDigitsAux (n + 1) n := by
        rw [← List.mem_reverse, hds]
        simp
      exact natDigitsAux_lt (n + 1) n (by omega) d this

theorem strtolModel_natChars (p : ℕ) :
    strtolModel (natChars p) = ((p : ℤ), (natChars p).length) := by
  obtain ⟨d, cs, heq, hd⟩ := natChars_head_digit p
  have hws : (natChars p).takeWhile isSpaceChar = [] := by
    rw [heq, List.takeWhile_cons, if_neg]
    rw [digitChar_not_space d hd]
    simp
  have hplus : decide ((natChars p).head? = some '+') = false := by
    apply decide_eq_false
    rw [heq]
    simp only [List.head?_cons, Option.some.injEq]
    exact digitChar_ne_plus d hd
  have hminus : decide ((natChars p).head? = some '-') = false := by
    apply decide_eq_false
    rw [heq]
    simp only [List.head?_cons, Option.some.injEq]
    exact digitChar_ne_minus d hd
  have htw : (natChars p).takeWhile isDigitChar = natChars p :=
    takeWhile_all_true _ _ (natChars_digits p)
  unfold strtolModel
  rw [hws]
  simp [hplus, hminus, htw, natChars_ne_nil p, parseDigitsVal_natChars]

theorem slash_not_mem_natChars (n : ℕ) : '/' ∉ natChars n := by
  intro hcon
  have := natChars_digits n '/' hcon
  simp [isDigitChar] at this

theorem slash_not_mem_addrString (a : ℕ) : '/' ∉ ip4AddrToString a := by
  intro hcon
  unfold ip4AddrToString at hcon
  have h0 := slash_not_mem_natChars (a / 2 ^ 24 % 256)
  have h1 := slash_not_mem_natChars (a / 2 ^ 16 % 256)
  have h2 := slash_not_mem_natChars (a / 2 ^ 8 % 256)
  have h3 := slash_not_mem_natChars (a % 256)
  simp only [List.mem_append, List.mem_cons] at hcon
  rcases hcon with ((hc | hc | hc) | hc | hc) | hc | hc <;>
    first
    | exact h0 hc
    | exact h1 hc
    | exact h2 hc
    | exact h3 hc
    | exact absurd hc (by decide)

theorem splitFirst_append (sep : Char) (a b : List Char) (h : sep ∉ a) :
    splitFirst sep (a ++ sep :: b) = some (a, b) := by
  induction a with
  | nil => simp [splitFirst]
  | cons c a' ih =>
    have hc : c ≠ sep := fun hcon => h (hcon ▸ List.mem_cons_self c a')
    have ha' : sep ∉ a' := fun hcon => h (List.mem_cons_of_mem c hcon)
    rw [List.cons_append]
    unfold splitFirst
    rw [if_neg hc, ih ha']
    rfl

theorem land_subnetMask_of_canonical (s : ip4Subnet) (h : ip4Canonical s) :
    s.addr &&& ip4SubnetMask s = s.addr := by
  obtain ⟨hp, ha, hmod⟩ := h
  have hm : ip4SubnetMask s = 2 ^ (32 - s.prefixLen) * (2 ^ s.prefixLen - 1) := by
    unfold ip4SubnetMask ip4HostMask
    have h1 : 2 ^ (32 - s.prefixLen) * 2 ^ s.prefixLen = 2 ^ 32 := by
      rw [← pow_add]
      congr 1
      omega
    have h2 : 1 ≤ 2 ^ s.prefixLen := Nat.one_le_pow _ _ (by norm_num)
    have h3 : 1 ≤ 2 ^ (32 - s.prefixLen) := Nat.one_le_pow _ _ (by norm_num)
    have h4 := Nat.mul_sub (2 ^ (32 - s.prefixLen)) (2 ^ s.prefixLen) 1
    omega
  apply Nat.eq_of_testBit_eq
  intro i
  rw [Nat.testBit_and]
  cases hi : s.addr.testBit i with
  | false => simp
  | true =>
    have hge : 32 - s.prefixLen ≤ i := by
      by_contra hlt
      push_neg at hlt
      have hmt := Nat.testBit_mod_two_pow s.addr (32 - s.prefixLen) i
      rw [hmod] at hmt
      simp [hlt, hi] at hmt
    have hlt32 : i < 32 := by
      by_contra hge32
      push_neg at hge32
      have hlt : s.addr < 2 ^ i :=
        lt_of_lt_of_le ha (Nat.pow_le_pow_right (by norm_num) hge32)
      rw [Nat.testBit_lt_two_pow hlt] at hi
      exact absurd hi (by simp)
    have hmb : (ip4SubnetMask s).testBit i = true := by
      rw [hm, Nat.testBit_mul_pow_two, Nat.testBit_two_pow_sub_one]
      simp only [Bool.and_eq_true, decide_eq_true_eq, ge_iff_le]
      exact ⟨hge, by omega⟩
    rw [hmb]
    simp

theorem ip4GetSubnet_roundTrip (s : ip4Subnet) (h : ip4Canonical s) :
    ip4GetSubnet (ip4SubnetToString s) = some s := by
  have hmask := land_subnetMask_of_canonical s h
  obtain ⟨hp, ha, hmod⟩ := h
  cases s with
  | mk a0 p0 =>
  simp only [] at hmask hp ha hmod
  have hcond : ¬((natChars p0).length = 0 ∨ (natChars p0).length ≠ (natChars p0).length ∨
      ((p0 : ℤ)) < 0 ∨ 32 < ((p0 : ℤ))) := by
    push_neg
    refine ⟨by simpa using natChars_ne_nil p0, rfl, Int.natCast_nonneg p0, by exact_mod_cast hp⟩
  unfold ip4GetSubnet ip4SubnetToString
  simp only []
  rw [splitFirst_append _ _ _ (slash_not_mem_addrString a0)]
  unfold ip4GetAddr
  simp only []
  rw [inetPton4_roundTrip a0 ha, strtolModel_natChars p0]
  simp only [Int.toNat_natCast]
  rw [if_neg hcond]
  rw [hmask]

theorem fragClosedForm_head_addr (base k L N : ℕ) (hN : 1 ≤ N) :
    ∀ f, (fragClosedForm base k L N).head? = some f → f.addr = base := by
  intro f hf
  obtain ⟨M, rfl⟩ : ∃ M, N = M + 1 := ⟨N - 1, by omega⟩
  unfold fragClosedForm at hf
  rw [List.range_succ_eq_map, List.map_cons, List.head?_cons,
    Option.some.injEq] at hf
  subst hf
  by_cases hL : 0 < L
  · rw [if_pos hL]
    simp
  · rw [if_neg hL]
    have hL0 : L = 0 := by omega
    subst hL0
    simp

/-! ## The claims -/

/-- Claim C1 (corrected): with reserved-address exclusion disabled, iterating
the iterator of `ip4NewIter P avoid` with `ip4IterNext`/`ip4IterAddr` yields
exactly the addresses of `P` outside every avoid range, in strictly ascending
order without duplicates, for any ordering of and overlap among the avoid
ranges — provided every avoid range ends at or after `P`'s first address.
(Without that proviso the claim fails: the range cursor can get stuck on an
avoid range lying wholly below `P`, silently disabling all later avoid
ranges; see the counterexample.)  In particular iterating `10.0.0.0/30`
avoiding `10.0.0.1/32` yields `10.0.0.0, 10.0.0.2, 10.0.0.3`, after which
`ip4IterNext` returns `false`. -/
theorem claim_C1_iterator_yields_free_addresses
    (P : ip4Subnet) (avoid : List ip4Subnet) (hc : ip4Canonical P)
    (hB : ∀ A ∈ avoid, ip4SubnetStart P ≤ ip4SubnetEnd A) :
    ip4IterAll (ip4NewIter P false avoid) =
      (intRange (ip4SubnetStart P) (ip4SubnetEnd P)).filter
        (freeOf (avoid.map subnetToRange)) ∧
    ip4IterAll (ip4NewIter { addr := 167772160, prefixLen := 30 } false
        [{ addr := 167772161, prefixLen := 32 }]) =
      [167772160, 167772162, 167772163] ∧
    (ip4IterNext (iterSteps (ip4NewIter { addr := 167772160, prefixLen := 30 }
        false [{ addr := 167772161, prefixLen := 32 }]) 3)).1 = false := by
  refine ⟨?_, by decide, by decide⟩
  have hinv := ip4NewIter_inv P avoid hB
  obtain ⟨hp, haddr, hmod⟩ := hc
  have hend : ip4SubnetEnd P < 2 ^ 32 := subnetEnd_lt_two_pow P haddr
  have hcur : -1 ≤ (ip4NewIter P false avoid).currentAddr := by
    rw [ip4NewIter_false_components]
    simp only []
    have : (0:ℤ) ≤ (ip4SubnetStart P : ℤ) := Int.natCast_nonneg _
    omega
  have hfin : (ip4NewIter P false avoid).finalAddr < 2 ^ 32 := by
    rw [ip4NewIter_false_components]
    simp only []
    exact_mod_cast hend
  unfold ip4IterAll
  rw [iterRun_spec _ _ hinv (le_refl _) hcur hfin]
  rw [ip4NewIter_false_components]
  simp only []
  rw [sub_add_cancel]
  refine List.filter_congr ?_
  intro a _
  exact freeOf_perm _ _ (sortRanges_perm _) a

/-- Witness for C1 at the parent `10.0.0.0/30` avoiding `10.0.0.1/32`. -/
theorem claim_C1_witness :
    (ip4IterAll (ip4NewIter { addr := 167772160, prefixLen := 30 } false
        [{ addr := 167772161, prefixLen := 32 }]) =
      (intRange (ip4SubnetStart { addr := 167772160, prefixLen := 30 })
          (ip4SubnetEnd { addr := 167772160, prefixLen := 30 })).filter
        (freeOf ([{ addr := 167772161, prefixLen := 32 }].map subnetToRange))) ∧
    ip4IterAll (ip4NewIter { addr := 167772160, prefixLen := 30 } false
        [{ addr := 167772161, prefixLen := 32 }]) =
      [167772160, 167772162, 167772163] ∧
    (ip4IterNext (iterSteps (ip4NewIter { addr := 167772160, prefixLen := 30 }
        false [{ addr := 167772161, prefixLen := 32 }]) 3)).1 = false :=
  claim_C1_iterator_yields_free_addresses _ _ (by decide) (by decide)

/-- Counterexample to C1 as stated: an avoid range lying wholly below the
parent (`10.0.0.0/30` avoiding `9.255.255.252/32`, address `167772156`)
leaves the cursor stuck, so the further avoid range `10.0.0.1/32` is ignored
and its address is yielded anyway. -/
theorem claim_C1_counterexample :
    ip4IterAll (ip4NewIter { addr := 167772160, prefixLen := 30 } false
      ([{ addr := 167772156, prefixLen := 32 },
         { addr := 167772161, prefixLen := 32 }] : List ip4Subnet)) ≠
    (intRange (ip4SubnetStart { addr := 167772160, prefixLen := 30 })
        (ip4SubnetEnd { addr := 167772160, prefixLen := 30 })).filter
      (freeOf (([{ addr := 167772156, prefixLen := 32 },
                  { addr := 167772161, prefixLen := 32 }] :
          List ip4Subnet).map subnetToRange)) := by
  decide

/-- Claim C2: for a canonical parent subnet of size `S` and any fragment
count `1 ≤ N ≤ S`, `ip4FragmentSubnet` yields exactly `N` fragments whose
sizes sum to `S`; they start at the parent's base address, are contiguous
(each starts where the previous one ends), each is aligned on a boundary of
its own size, and they are pairwise disjoint. -/
theorem claim_C2_fragment_partition (P : ip4Subnet) (N : ℕ)
    (hc : ip4Canonical P) (hN : 1 ≤ N) (hNS : N ≤ ip4SubnetSize P false) :
    (fragmentsOf P N).length = N ∧
    ((fragmentsOf P N).map fun f => ip4SubnetSize f false).sum =
      ip4SubnetSize P false ∧
    (∀ f, (fragmentsOf P N).head? = some f → f.addr = ip4SubnetStart P) ∧
    List.Chain' (fun f g => g.addr = f.addr + ip4SubnetSize f false)
      (fragmentsOf P N) ∧
    (∀ f ∈ fragmentsOf P N, f.addr % ip4SubnetSize f false = 0) ∧
    List.Pairwise (fun f g => f.addr + ip4SubnetSize f false ≤ g.addr)
      (fragmentsOf P N) := by
  obtain ⟨h1, hkm, hL, hLN, hLpos, haddr⟩ := fragParams_facts P N hc hN hNS
  have hcf := fragmentsOf_closedForm P N hc hN hNS
  obtain ⟨hp32, hlt, hmod⟩ := hc
  set S := ip4SubnetSize P false with hSdef
  set k := Nat.log2 (S / N) with hkdef
  set L := (S - 2 ^ k * N) / 2 ^ k with hLdef
  have hdvd : (2:ℕ) ^ (32 - P.prefixLen) ∣ P.addr := Nat.dvd_of_mod_eq_zero hmod
  have hk32 : k ≤ 32 := by omega
  have hk31 : 0 < L → k ≤ 31 := fun h => by have := hLpos h; omega
  have hsm : (2:ℕ) ^ k ∣ P.addr := dvd_trans (pow_dvd_pow 2 hkm) hdvd
  have hlg : 0 < L → (2:ℕ) ^ (k + 1) ∣ P.addr := fun h =>
    dvd_trans (pow_dvd_pow 2 (hLpos h)) hdvd
  rw [hcf]
  refine ⟨fragClosedForm_length _ _ _ _, ?_, ?_,
    fragClosedForm_chain _ _ _ _ hk31 hk32,
    fragClosedForm_aligned _ _ _ _ hk31 hk32 hsm hlg,
    fragClosedForm_pairwise _ _ _ _ hk31 hk32⟩
  · rw [fragClosedForm_sum _ _ _ _ hk31 hk32 (by omega)]
    have hmuladd : (2:ℕ) ^ k * (N + L) = 2 ^ k * N + 2 ^ k * L :=
      Nat.mul_add _ _ _
    omega
  · intro f hf
    exact fragClosedForm_head_addr _ _ _ _ hN f hf

/-- Witness for C2 at the parent `10.0.0.0/24` split into 3 fragments. -/
theorem claim_C2_witness :
    (fragmentsOf { addr := 167772160, prefixLen := 24 } 3).length = 3 ∧
    ((fragmentsOf { addr := 167772160, prefixLen := 24 } 3).map
        fun f => ip4SubnetSize f false).sum =
      ip4SubnetSize { addr := 167772160, prefixLen := 24 } false :=
  ⟨(claim_C2_fragment_partition { addr := 167772160, prefixLen := 24 } 3
      (by decide) (by decide) (by decide)).1,
   (claim_C2_fragment_partition { addr := 167772160, prefixLen := 24 } 3
      (by decide) (by decide) (by decide)).2.1⟩

/-- Claim C3: for a canonical parent of size `S` and `1 ≤ N ≤ S`, with
`k = log2 (S / N)` and `L` the number of large fragments, the produced list
is exactly `L` fragments of prefix `32 - k - 1` followed by `N - L` of
prefix `32 - k`, contiguously from the base; the first `N` calls of
`ip4FragIterNext` return `true` and the `(N+1)`-th returns `false`.  In
particular `10.0.0.0/24` split in 3 gives `10.0.0.0/25, 10.0.0.128/26,
10.0.0.192/26`. -/
theorem claim_C3_fragment_sequence (P : ip4Subnet) (N : ℕ)
    (hc : ip4Canonical P) (hN : 1 ≤ N) (hNS : N ≤ ip4SubnetSize P false) :
    fragmentsOf P N =
      fragClosedForm P.addr (Nat.log2 (ip4SubnetSize P false / N))
        ((ip4SubnetSize P false -
            2 ^ Nat.log2 (ip4SubnetSize P false / N) * N) /
          2 ^ Nat.log2 (ip4SubnetSize P false / N)) N ∧
    (∀ it, ip4FragmentSubnet P N = some it →
      (∀ i, i < N → (ip4FragIterNext (fragIterate it i)).1 = true) ∧
      (ip4FragIterNext (fragIterate it N)).1 = false) ∧
    fragmentsOf { addr := 167772160, prefixLen := 24 } 3 =
      [{ addr := 167772160, prefixLen := 25 },
       { addr := 167772288, prefixLen := 26 },
       { addr := 167772352, prefixLen := 26 }] := by
  obtain ⟨h1, hkm, hL, hLN, hLpos, haddr⟩ := fragParams_facts P N hc hN hNS
  refine ⟨fragmentsOf_closedForm P N hc hN hNS, ?_, ?_⟩
  · intro it hit
    rw [ip4FragmentSubnet_eq_mk P N hNS, Option.some.injEq] at hit
    subst hit
    exact ⟨fragNext_true _ _ _ _ hLN, fragNext_false _ _ _ _ hLN hN⟩
  · have hlog : Nat.log2 85 = 6 := by simp [Nat.log2]
    have hS : ip4SubnetSize { addr := 167772160, prefixLen := 24 } false = 256 :=
      by decide
    have hfs : ip4FragmentSubnet { addr := 167772160, prefixLen := 24 } 3 =
        some (mkFragIter 167772160 6 1 3) := by
      rw [ip4FragmentSubnet_eq_mk _ _ (by decide)]
      rw [hS]
      norm_num [hlog]
    unfold fragmentsOf
    rw [hfs]
    decide

/-- Witness for C3 at the parent `10.0.0.0/24` split into 3 fragments. -/
theorem claim_C3_witness :
    fragmentsOf { addr := 167772160, prefixLen := 24 } 3 =
      fragClosedForm ({ addr := 167772160, prefixLen := 24 } : ip4Subnet).addr
        (Nat.log2 (ip4SubnetSize { addr := 167772160, prefixLen := 24 } false / 3))
        ((ip4SubnetSize { addr := 167772160, prefixLen := 24 } false -
            2 ^ Nat.log2
              (ip4SubnetSize { addr := 167772160, prefixLen := 24 } false / 3) * 3) /
          2 ^ Nat.log2
            (ip4SubnetSize { addr := 167772160, prefixLen := 24 } false / 3)) 3 :=
  (claim_C3_fragment_sequence { addr := 167772160, prefixLen := 24 } 3
    (by decide) (by decide) (by decide)).1

/-- Claim C4 (corrected): `gmlNextEdge`'s per-edge capacities are computed
with C `round()` — ties away from zero, not the round-half-to-even the claim
names — so for `C ≥ E ≥ 1` each capacity is at least 1 and they sum to `C`,
but for `C = 5, E = 2` the capacities are 3 and 2, not 2 and 3. -/
theorem claim_C4_edge_capacities (C E : ℕ) (hE : 1 ≤ E) (hCE : E ≤ C) :
    (∀ e : ℕ, 1 ≤ gmlEdgeCapacity (clientsPerEdgeOf C E) e) ∧
    (∑ e ∈ Finset.range E, gmlEdgeCapacity (clientsPerEdgeOf C E) e) = C ∧
    gmlEdgeCapacity (clientsPerEdgeOf 5 2) 0 = 3 ∧
    gmlEdgeCapacity (clientsPerEdgeOf 5 2) 1 = 2 := by
  refine ⟨?_, gmlEdgeCapacity_sum C E hE, ?_, ?_⟩
  · intro e
    apply gmlEdgeCapacity_pos
    unfold clientsPerEdgeOf
    have hE0 : (0:ℚ) < (E:ℚ) := by exact_mod_cast (by omega : 0 < E)
    rw [le_div_iff₀ hE0]
    have hcq : (E:ℚ) ≤ (C:ℚ) := by exact_mod_cast hCE
    linarith
  · norm_num [gmlEdgeCapacity, clientsPerEdgeOf, roundC]
  · norm_num [gmlEdgeCapacity, clientsPerEdgeOf, roundC]

/-- Witness for C4 at `C = 5`, `E = 2`. -/
theorem claim_C4_witness :
    1 ≤ gmlEdgeCapacity (clientsPerEdgeOf 5 2) 0 ∧
    (∑ e ∈ Finset.range 2, gmlEdgeCapacity (clientsPerEdgeOf 5 2) e) = 5 :=
  ⟨(claim_C4_edge_capacities 5 2 (by norm_num) (by norm_num)).1 0,
   (claim_C4_edge_capacities 5 2 (by norm_num) (by norm_num)).2.1⟩

/-- Counterexample to C4 as stated: with round-half-to-even, which the claim
ascribes to the code, edge 0 of `C = 5, E = 2` would receive capacity 2; the
code's round-half-away-from-zero gives it 3. -/
theorem claim_C4_counterexample :
    roundHalfEven (clientsPerEdgeOf 5 2 * (0 + 1)) -
      roundHalfEven (clientsPerEdgeOf 5 2 * 0) = 2 ∧
    gmlEdgeCapacity (clientsPerEdgeOf 5 2) 0 = 3 := by
  constructor
  · norm_num [roundHalfEven, clientsPerEdgeOf]
  · norm_num [gmlEdgeCapacity, clientsPerEdgeOf, roundC]

/-- Claim C5: the claim's default part holds — a fresh node's client flag is
`true` exactly when no client-type discriminator is configured — but its
comparison part does not: `graphEndElement` compares the `type` data value to
the string literal `"client"`, not to the configured discriminator.  With
discriminator `"c"`, the value `"client"` sets the flag and the value `"c"`
(equal to the discriminator) clears it — the opposite of the claim. -/
theorem claim_C5_type_discriminator :
    (graphStartElement (graphModeState none) "node"
        [("id", "n")]).node.Client = true ∧
    (graphStartElement (graphModeState (some "c")) "node"
        [("id", "n")]).node.Client = false ∧
    (graphEndElement (typeDataState "client") "data"
        (fun _ => 0) (fun _ => 0)).1.node.Client = true ∧
    (graphEndElement (typeDataState "c") "data"
        (fun _ => 0) (fun _ => 0)).1.node.Client = false := by
  decide

/-- Claim C6 (corrected): `macNextAddrs` reports success exactly when the
48-bit counter does not wrap, and — provided it does not — fills the buffer
with the consecutive counter values starting at the current one, which are
strictly increasing.  The claim's unconditional monotonicity fails on a wrap
(see the counterexample), where the buffer ends `..., 2^48 - 1, 0`. -/
theorem claim_C6_macNextAddrs_buffer (v : macAddr) (k : ℕ) (h : macWF v) :
    (macNextAddrs v k).2.2 = decide (macVal v + k < 2 ^ 48) ∧
    (macVal v + k ≤ 2 ^ 48 →
      ((macNextAddrs v k).1).map macVal =
        (List.range k).map (macVal v + ·) ∧
      List.Chain' (fun a b => a < b) (((macNextAddrs v k).1).map macVal)) := by
  refine ⟨macNextAddrs_ok v k h, fun hb => ⟨macNextAddrs_buffer v k h hb, ?_⟩⟩
  rw [macNextAddrs_buffer v k h hb]
  rw [List.chain'_iff_get]
  intro i hi
  simp only [List.get_eq_getElem, List.getElem_map, List.getElem_range]
  omega

/-- Witness for C6 at the first assignable counter value and `k = 3`. -/
theorem claim_C6_witness :
    (macNextAddrs setupInitialMac 3).2.2 =
      decide (macVal setupInitialMac + 3 < 2 ^ 48) ∧
    ((macNextAddrs setupInitialMac 3).1).map macVal =
      (List.range 3).map (macVal setupInitialMac + ·) :=
  ⟨(claim_C6_macNextAddrs_buffer setupInitialMac 3 (by decide)).1,
   ((claim_C6_macNextAddrs_buffer setupInitialMac 3 (by decide)).2
      (by decide)).1⟩

/-- Counterexample to C6 as stated: starting at the all-ones counter, two
addresses wrap through zero and the buffer values `[2^48 - 1, 0]` are not
strictly increasing. -/
theorem claim_C6_counterexample :
    ((macNextAddrs [255, 255, 255, 255, 255, 255] 2).1).map macVal =
      [2 ^ 48 - 1, 0] ∧
    ¬ List.Chain' (fun a b => a < b)
      (((macNextAddrs [255, 255, 255, 255, 255, 255] 2).1).map macVal) := by
  have h1 : ((macNextAddrs [255, 255, 255, 255, 255, 255] 2).1).map macVal =
      [2 ^ 48 - 1, 0] := by decide
  refine ⟨h1, ?_⟩
  intro hcon
  rw [h1, List.chain'_cons] at hcon
  exact absurd hcon.1 (by omega)

/-- Claim C7: the all-zero MAC address is never part of a block handed to
the worker during a setup run: the orchestrator advances the shared counter
past zero before its first use (`setupInitialMac` has value 1), and every
address in every delivered block is nonzero — the callbacks return an error
on a wrap before delivering the block, which `macBlocksFrom` reflects by
ending the run at the first failed allocation. -/
theorem claim_C7_zero_mac_never_assigned (requests : List ℕ) :
    macVal setupInitialMac = 1 ∧
    ∀ block ∈ macBlocksFrom setupInitialMac requests,
      ∀ m ∈ block, macVal m ≠ 0 :=
  ⟨by decide,
   macBlocksFrom_nonzero requests setupInitialMac (by decide) (by decide)⟩

/-- Claim C8: on the first link callback of a run (node parsing just
finished, edges not ignored), fewer client nodes than edge nodes fails with
the nonzero result 1 and no worker interaction at all — in particular no
route planner is created and no link is registered — while
`clientNodes ≥ edgeNodeCount` proceeds into the scaling-and-planner path,
whose first worker call is `workEnsureSystemScaling`. -/
theorem claim_C8_first_link_gate (w : WorkOracle)
    (edgeNodeCount neededMacsLink : ℕ) (link : GmlLink) (ctx : gmlContext)
    (hfirst : ctx.finishedNodes = false) (hignore : ctx.ignoreEdges = false) :
    (ctx.clientNodes < edgeNodeCount →
      (gmlAddLink w edgeNodeCount neededMacsLink link ctx).1 = 1 ∧
      (gmlAddLink w edgeNodeCount neededMacsLink link ctx).2.2 = []) ∧
    (edgeNodeCount ≤ ctx.clientNodes →
      ((gmlAddLink w edgeNodeCount neededMacsLink link ctx).2.2).head? =
        some (WorkEvent.ensureSystemScaling (ctx.nodeCount * ctx.nodeCount)
          ctx.nodeCount ctx.clientNodes)) := by
  constructor
  · intro hlt
    simp [gmlAddLink, hignore, hfirst, hlt]
  · intro hge
    have hnlt : ¬ ctx.clientNodes < edgeNodeCount := by omega
    by_cases hres : w.ensureSystemScalingRes = 0
    · simp [gmlAddLink, hignore, hfirst, hnlt, hres]
    · simp [gmlAddLink, hignore, hfirst, hnlt, hres]

/-- Witness for C8: two client nodes against one edge node proceed. -/
theorem claim_C8_witness :
    (c8Ctx.clientNodes < 1 →
      (gmlAddLink c8Oracle 1 2 c8Link c8Ctx).1 = 1 ∧
      (gmlAddLink c8Oracle 1 2 c8Link c8Ctx).2.2 = []) ∧
    (1 ≤ c8Ctx.clientNodes →
      ((gmlAddLink c8Oracle 1 2 c8Link c8Ctx).2.2).head? =
        some (WorkEvent.ensureSystemScaling (c8Ctx.nodeCount * c8Ctx.nodeCount)
          c8Ctx.nodeCount c8Ctx.clientNodes)) :=
  claim_C8_first_link_gate c8Oracle 1 2 c8Link c8Ctx rfl rfl

/-- Claim C9: once the parser's `dead` flag is set, the three SAX callbacks
leave the state unchanged and invoke no node or link callback, so only the
first fatal diagnostic is ever acted upon. -/
theorem claim_C9_dead_flag_noop (s : GraphParserState) (name ch : String)
    (atts : List (String × String)) (strtodF : String → ℚ)
    (strtoulF : String → ℕ) (h : s.dead = true) :
    graphStartElement s name atts = s ∧
    graphEndElement s name strtodF strtoulF = (s, []) ∧
    graphCharacters s ch = s := by
  refine ⟨?_, ?_, ?_⟩ <;>
    simp [graphStartElement, graphEndElement, graphCharacters, h]

/-- Witness for C9 at a concrete dead state. -/
theorem claim_C9_witness :
    graphStartElement deadState "node" [] = deadState ∧
    graphEndElement deadState "node" (fun _ => 0) (fun _ => 0) =
      (deadState, []) ∧
    graphCharacters deadState "x" = deadState :=
  claim_C9_dead_flag_noop deadState "node" "x" [] (fun _ => 0) (fun _ => 0) rfl

/-- Claim C10: printing a canonical subnet (prefix length at most 32, host
bits zero) with `ip4SubnetToString` and parsing the result with
`ip4GetSubnet` succeeds and returns the same subnet. -/
theorem claim_C10_subnet_roundTrip (s : ip4Subnet) (h : ip4Canonical s) :
    ip4GetSubnet (ip4SubnetToString s) = some s :=
  ip4GetSubnet_roundTrip s h

/-- Witness for C10 at `10.0.0.0/30`. -/
theorem claim_C10_witness :
    ip4GetSubnet (ip4SubnetToString { addr := 167772160, prefixLen := 30 }) =
      some { addr := 167772160, prefixLen := 30 } :=
  claim_C10_subnet_roundTrip { addr := 167772160, prefixLen := 30 } (by decide)
